import Mathlib

/-!
Verification of the convos-node-sdk signed-invite pipeline.

Modelling conventions:
* JavaScript strings are represented by their UTF-8 byte sequences
  (`JSStr := List Nat`); all string operations used by the code
  (hex parsing, regex tests over ASCII classes, trimming, ASCII
  lower-casing) act byte-wise and agree with the JS semantics on
  valid UTF-8 input, because every character class involved is ASCII.
* `Uint8Array` values are `Bytes := List Nat` with entries below 256.
* JavaScript exceptions are modelled by `Option`: a function that can
  throw returns `none` where the original throws.
* `Date` values are modelled by their epoch time; the code only ever
  uses `Math.floor(date.getTime() / 1000)`, modelled as an `Int`.
* External libraries (@noble/secp256k1, @noble/ciphers, @noble/hashes,
  pako) are not part of the repository; they are modelled as bundled
  abstract primitives (`ExtCrypto`, `Pako`) whose fields carry exactly
  the contracts those libraries document (AEAD round-trip, ECDSA
  sign/recover consistency, DEFLATE round-trip).  Everything written in
  the repository itself is embedded concretely.
-/

namespace Convos

/-- UTF-8 byte sequence standing for a JavaScript string. -/
abbrev JSStr := List Nat

/-- Byte sequence standing for a `Uint8Array`. -/
abbrev Bytes := List Nat

/-- All entries are actual byte values. -/
def ValidBytes (b : Bytes) : Prop := ∀ x ∈ b, x < 256

instance (b : Bytes) : Decidable (ValidBytes b) := by
  unfold ValidBytes; infer_instance

/-- Literal helper: the UTF-8 bytes of an ASCII Lean string literal. -/
def s2b (s : String) : JSStr := s.data.map Char.toNat

/-! ## Hex utilities — `src/dist/utils/hex.js` -/

/-- Value of one hex digit character (`parseInt` accepts both cases). -/
def hexVal (c : Nat) : Option Nat :=
  if 48 ≤ c ∧ c ≤ 57 then some (c - 48)
  else if 97 ≤ c ∧ c ≤ 102 then some (c - 87)
  else if 65 ≤ c ∧ c ≤ 70 then some (c - 55)
  else none

/-- `parseInt(String.fromCharCode(c1, c2), 16)` coerced through a
`Uint8Array` store: a fully invalid pair gives `NaN`, stored as 0; a
pair whose second character is invalid parses only the first digit. -/
def parseIntPair (c1 c2 : Nat) : Nat :=
  match hexVal c1, hexVal c2 with
  | some a, some b => 16 * a + b
  | some a, none => a
  | none, _ => 0

/-- Pairwise hex parsing used by `hexToBytes` (the source loops over
`bytes.length = hex.length / 2` two-character slices). -/
def hexPairs : JSStr → Bytes
  | [] => []
  | [_] => []
  | c1 :: c2 :: t => parseIntPair c1 c2 :: hexPairs t

/-- `hexToBytes`: throws on odd length, otherwise parses byte pairs. -/
def hexToBytes (hex : JSStr) : Option Bytes :=
  if hex.length % 2 ≠ 0 then none else some (hexPairs hex)

/-- Lowercase hex digit character for a value below 16. -/
def hexDigit (v : Nat) : Nat := if v < 10 then v + 48 else v + 87

/-- `b.toString(16).padStart(2, "0")` for a byte value. -/
def byteToHexPair (b : Nat) : JSStr := [hexDigit (b / 16 % 16), hexDigit (b % 16)]

/-- `bytesToHex`: lowercase, two digits per byte. -/
def bytesToHex (b : Bytes) : JSStr := (b.map byteToHexPair).flatten

/-! ## URL-safe base64 — `src/dist/utils/base64url.js`

The source produces standard base64 via `Buffer`, then substitutes
`-`/`_` for `+`/`/` and strips padding; the decoder re-adds padding and
feeds `Buffer.from(_, "base64")`.  The model composes the two steps:
it emits the URL-safe alphabet directly and decodes 4-character groups,
accepting both alphabets like Node does.  (Node's decoder also skips
entirely invalid characters; the model rejects them instead — only
canonical encoder output reaches the decoder in the verified claims.) -/

/-- Sextet value to URL-safe base64 character code. -/
def b64Char (v : Nat) : Nat :=
  if v < 26 then v + 65
  else if v < 52 then v - 26 + 97
  else if v < 62 then v - 52 + 48
  else if v = 62 then 45
  else 95

/-- Base64 character code to sextet value (both alphabets). -/
def b64Val (c : Nat) : Option Nat :=
  if 65 ≤ c ∧ c ≤ 90 then some (c - 65)
  else if 97 ≤ c ∧ c ≤ 122 then some (c - 97 + 26)
  else if 48 ≤ c ∧ c ≤ 57 then some (c - 48 + 52)
  else if c = 45 ∨ c = 43 then some 62
  else if c = 95 ∨ c = 47 then some 63
  else none

/-- Unpadded URL-safe base64 encoding. -/
def base64UrlEncode : Bytes → JSStr
  | [] => []
  | [a] => [b64Char (a / 4), b64Char (a % 4 * 16)]
  | [a, b] => [b64Char (a / 4), b64Char (a % 4 * 16 + b / 16), b64Char (b % 16 * 4)]
  | a :: b :: c :: t =>
      b64Char (a / 4) :: b64Char (a % 4 * 16 + b / 16) ::
      b64Char (b % 16 * 4 + c / 64) :: b64Char (c % 64) :: base64UrlEncode t

/-- URL-safe base64 decoding (padding-tolerant, as the source re-pads). -/
def base64UrlDecode : JSStr → Option Bytes
  | [] => some []
  | [_] => none
  | [c1, c2] => do
      let s1 ← b64Val c1
      let s2 ← b64Val c2
      pure [s1 * 4 + s2 / 16]
  | [c1, c2, c3] => do
      let s1 ← b64Val c1
      let s2 ← b64Val c2
      let s3 ← b64Val c3
      pure [s1 * 4 + s2 / 16, s2 % 16 * 16 + s3 / 4]
  | c1 :: c2 :: c3 :: c4 :: t => do
      let s1 ← b64Val c1
      let s2 ← b64Val c2
      let s3 ← b64Val c3
      let s4 ← b64Val c4
      let rest ← base64UrlDecode t
      pure ((s1 * 4 + s2 / 16) :: (s2 % 16 * 16 + s3 / 4) :: (s3 % 4 * 64 + s4) :: rest)

/-! ## Compression framing — `src/dist/utils/compression.js`

The DEFLATE codec itself is the external `pako` library; it is bundled
as an abstract pair with the round-trip contract it documents.  The
framing logic (size threshold, marker byte, bomb limit) is the
repository's own and is embedded concretely. -/

/-- Abstract model of the `pako` DEFLATE codec. -/
structure Pako where
  deflate : Bytes → Bytes
  inflate : Bytes → Option Bytes
  inflate_deflate : ∀ b, inflate (deflate b) = some b
  deflate_bytes : ∀ b, ValidBytes b → ValidBytes (deflate b)

/-- `0x78`: zlib header byte used as the compression marker. -/
def COMPRESSION_MARKER : Nat := 120

/-- 1 MiB decompression bomb limit. -/
def MAX_DECOMPRESSED_SIZE : Nat := 1024 * 1024

/-- Inputs below this size are returned unchanged. -/
def MIN_SIZE_FOR_COMPRESSION : Nat := 100

/-- `compressIfSmaller`: passthrough below the threshold; otherwise
DEFLATE, and keep the compressed form (with marker prepended) only when
it is strictly smaller including the marker byte.  (The source also
falls back to the input if `pako.deflate` throws; `deflate` is total
here.) -/
def compressIfSmaller (P : Pako) (data : Bytes) : Bytes :=
  if data.length < MIN_SIZE_FOR_COMPRESSION then data
  else
    let compressed := P.deflate data
    if compressed.length + 1 < data.length then COMPRESSION_MARKER :: compressed
    else data

/-- `decompress`: inflate when the first byte is the marker, enforcing
the bomb limit; otherwise return the input unchanged. -/
def decompress (P : Pako) (data : Bytes) : Option Bytes :=
  if data.length = 0 ∨ data.headD 0 ≠ COMPRESSION_MARKER then some data
  else
    match P.inflate (data.drop 1) with
    | none => none
    | some decompressed =>
        if decompressed.length > MAX_DECOMPRESSED_SIZE then none
        else some decompressed

/-! ## Slug framing — `src/dist/invite/encoding.js` -/

/-- `*` separator inserted for iMessage compatibility. -/
def IMESSAGE_SEPARATOR : Nat := 42

/-- Chunk size for separator insertion. -/
def IMESSAGE_CHUNK_SIZE : Nat := 300

/-- `insertSeparators`: join 300-character chunks with `*`. -/
def insertSeparators (str : JSStr) : JSStr :=
  if h : str.length ≤ IMESSAGE_CHUNK_SIZE then str
  else
    have : 0 < str.length := by
      have h300 : (300 : Nat) < str.length := by
        simpa [IMESSAGE_CHUNK_SIZE] using Nat.lt_of_not_le h
      omega
    str.take IMESSAGE_CHUNK_SIZE ++ IMESSAGE_SEPARATOR ::
      insertSeparators (str.drop IMESSAGE_CHUNK_SIZE)
termination_by str.length
decreasing_by
  simp only [List.length_drop]
  simp only [IMESSAGE_CHUNK_SIZE] at *
  omega

/-- `slug.replace(/\*/g, "")`. -/
def stripSeparators (slug : JSStr) : JSStr := slug.filter (fun c => c ≠ IMESSAGE_SEPARATOR)

/-- `encodeToSlug`: compress, base64url-encode, chunk-separate. -/
def encodeToSlug (P : Pako) (data : Bytes) : JSStr :=
  insertSeparators (base64UrlEncode (compressIfSmaller P data))

/-- `decodeFromSlug`: strip separators, base64url-decode, decompress. -/
def decodeFromSlug (P : Pako) (slug : JSStr) : Option Bytes := do
  let decoded ← base64UrlDecode (stripSeparators slug)
  decompress P decoded

/-- JS `String.prototype.trim` whitespace, restricted to the ASCII
whitespace characters (the non-ASCII WhiteSpace code points never occur
in the inputs the theorems quantify over). -/
def isJsWhitespace (c : Nat) : Bool :=
  c = 9 ∨ c = 10 ∨ c = 11 ∨ c = 12 ∨ c = 13 ∨ c = 32

/-- `input.trim()`. -/
def jsTrim (s : JSStr) : JSStr :=
  ((s.dropWhile isJsWhitespace).reverse.dropWhile isJsWhitespace).reverse

/-- Simplified model of the `new URL(...)` branch of `parseInviteCode`:
look for a `i=` query parameter, then `code=`, then fall back to the
last path segment.  This branch is reached only when the trimmed input
contains a `:` (otherwise the `URL` constructor throws); none of the
theorems below exercise it, because a generated slug never contains a
colon.  Percent-decoding of query values is not modelled. -/
def parseInviteCodeUrlBranch (t : JSStr) : JSStr :=
  let afterQuery := (t.dropWhile (fun c => c ≠ 63)).drop 1
  let params := afterQuery.splitOn 38
  match params.find? (fun p => p.take 2 = s2b "i=") with
  | some p => p.drop 2
  | none =>
    match params.find? (fun p => p.take 5 = s2b "code=") with
    | some p => p.drop 5
    | none =>
      let path := t.takeWhile (fun c => c ≠ 63)
      ((path.splitOn 47).filter (fun seg => seg ≠ [])).getLastD []

/-- `parseInviteCode`: trim, then either extract a code from a URL or
return the raw slug.  The `new URL` constructor succeeds only on inputs
with a scheme, i.e. containing a colon. -/
def parseInviteCode (input : JSStr) : JSStr :=
  let trimmed := jsTrim input
  if 58 ∈ trimmed then parseInviteCodeUrlBranch trimmed else trimmed

/-! ## Protobuf wire primitives

`protobufjs` is configured programmatically in `src/src/proto/invite.ts`
and `conversation-metadata.ts`; its writer/reader semantics for the
schemas at hand are embedded concretely: base-128 varints, length-
delimited fields, little-endian `sfixed64`, fields written in schema
order, unknown fields skipped by wire type, later occurrences of a
singular field overwriting earlier ones. -/

/-- Base-128 varint encoding. -/
def varintEncode (n : Nat) : Bytes :=
  if h : n < 128 then [n]
  else (n % 128 + 128) :: varintEncode (n / 128)
termination_by n
decreasing_by omega

/-- Base-128 varint decoding; returns the value and the rest. -/
def varintDecode : Bytes → Option (Nat × Bytes)
  | [] => none
  | b :: t =>
      if b < 128 then some (b, t)
      else
        match varintDecode t with
        | none => none
        | some (n, r) => some (b % 128 + 128 * n, r)

theorem varintDecode_lt {bs : Bytes} {n : Nat} {r : Bytes}
    (h : varintDecode bs = some (n, r)) : r.length < bs.length := by
  induction bs generalizing n r with
  | nil => simp [varintDecode] at h
  | cons b t ih =>
    simp only [varintDecode] at h
    by_cases hb : b < 128
    · rw [if_pos hb] at h
      simp only [Option.some.injEq, Prod.mk.injEq] at h
      obtain ⟨rfl, rfl⟩ := h
      simp
    · rw [if_neg hb] at h
      match ht : varintDecode t with
      | none => rw [ht] at h; simp at h
      | some (m, r2) =>
        rw [ht] at h
        simp only [Option.some.injEq, Prod.mk.injEq] at h
        obtain ⟨rfl, rfl⟩ := h
        have := ih ht
        simp only [List.length_cons]
        omega

theorem varintDecode_encode (n : Nat) (rest : Bytes) :
    varintDecode (varintEncode n ++ rest) = some (n, rest) := by
  induction n using Nat.strong_induction_on with
  | _ n ih =>
    by_cases h : n < 128
    · simp [varintEncode, h, varintDecode]
    · rw [varintEncode]
      simp only [h, dite_false, List.cons_append]
      rw [varintDecode]
      have h1 : ¬ (n % 128 + 128 < 128) := by omega
      simp only [h1, if_false]
      rw [ih (n / 128) (by omega)]
      show some ((n % 128 + 128) % 128 + 128 * (n / 128), rest) = some (n, rest)
      have heq : (n % 128 + 128) % 128 + 128 * (n / 128) = n := by omega
      rw [heq]

/-- Length-delimited payload: varint length followed by the bytes. -/
def lenDelim (b : Bytes) : Bytes := varintEncode b.length ++ b

/-- Read a length-delimited payload (throws past the end of buffer). -/
def readLen (bs : Bytes) : Option (Bytes × Bytes) :=
  match varintDecode bs with
  | none => none
  | some (n, r) => if r.length < n then none else some (r.take n, r.drop n)

theorem readLen_lt {bs : Bytes} {v r : Bytes}
    (h : readLen bs = some (v, r)) : r.length < bs.length := by
  unfold readLen at h
  match hv : varintDecode bs with
  | none => rw [hv] at h; simp at h
  | some (n, r1) =>
    rw [hv] at h
    by_cases hn : r1.length < n
    · simp [hn] at h
    · simp [hn] at h
      have := varintDecode_lt hv
      have : r.length ≤ r1.length := by
        simp [← h.2]
      omega

theorem readLen_lenDelim (b rest : Bytes) :
    readLen (lenDelim b ++ rest) = some (b, rest) := by
  unfold readLen lenDelim
  rw [List.append_assoc, varintDecode_encode]
  simp

/-- Little-endian `sfixed64` byte encoding of a 64-bit value. -/
def fixed64Encode (n : Nat) : Bytes :=
  [n % 256, n / 256 % 256, n / 65536 % 256, n / 16777216 % 256,
   n / 4294967296 % 256, n / 1099511627776 % 256,
   n / 281474976710656 % 256, n / 72057594037927936 % 256]

/-- Read eight little-endian bytes. -/
def readFixed64 : Bytes → Option (Nat × Bytes)
  | b0 :: b1 :: b2 :: b3 :: b4 :: b5 :: b6 :: b7 :: rest =>
      some (b0 + 256 * (b1 + 256 * (b2 + 256 * (b3 + 256 * (b4 + 256 *
        (b5 + 256 * (b6 + 256 * b7)))))), rest)
  | _ => none

theorem readFixed64_lt {bs : Bytes} {n : Nat} {r : Bytes}
    (h : readFixed64 bs = some (n, r)) : r.length < bs.length := by
  match _hbs : bs with
  | b0 :: b1 :: b2 :: b3 :: b4 :: b5 :: b6 :: b7 :: rest =>
    simp [readFixed64] at h
    simp [← h.2]
    omega
  | [] | [_] | [_, _] | [_, _, _] | [_, _, _, _] | [_, _, _, _, _]
  | [_, _, _, _, _, _] | [_, _, _, _, _, _, _] => simp [readFixed64] at h

theorem readFixed64_encode {n : Nat} (hn : n < 2 ^ 64) (rest : Bytes) :
    readFixed64 (fixed64Encode n ++ rest) = some (n, rest) := by
  simp only [fixed64Encode, List.cons_append, List.nil_append, readFixed64,
    Option.some.injEq, Prod.mk.injEq]
  refine ⟨?_, trivial⟩
  omega

/-- Interpretation of eight little-endian bytes as a signed 64-bit
value (`Long` with `unsigned = false`). -/
def toInt64 (n : Nat) : Int := if n < 2 ^ 63 then (n : Int) else (n : Int) - 2 ^ 64

/-- The low 64 bits of a `bigint`, as masked by the source's
`Long.fromBigInt` (`value & 0xffffffffn`, `(value >> 32n) & 0xffffffffn`). -/
def toUInt64 (v : Int) : Nat := (v % (2 ^ 64 : Int)).toNat

theorem toInt64_toUInt64 {v : Int} (h1 : -(2 ^ 63) ≤ v) (h2 : v < 2 ^ 63) :
    toInt64 (toUInt64 v) = v := by
  unfold toInt64 toUInt64
  by_cases hv : 0 ≤ v
  · have : v % (2 ^ 64 : Int) = v := Int.emod_eq_of_lt hv (by omega)
    rw [this]
    have : v.toNat < 2 ^ 63 := by omega
    simp [this]
    omega
  · have : v % (2 ^ 64 : Int) = v + 2 ^ 64 := by
      have := Int.emod_emod_of_dvd v (dvd_refl (2 ^ 64 : Int))
      omega
    rw [this]
    have h3 : ¬ ((v + 2 ^ 64).toNat < 2 ^ 63) := by omega
    simp [h3]
    omega

theorem toUInt64_lt (v : Int) : toUInt64 v < 2 ^ 64 := by
  unfold toUInt64
  have h1 : v % (2 ^ 64 : Int) < 2 ^ 64 := Int.emod_lt_of_pos v (by norm_num)
  omega

/-- Field header: `(fieldNumber << 3) | wireType`. -/
def fieldKey (fno wire : Nat) : Nat := fno * 8 + wire

/-- A length-delimited field (wire type 2). -/
def fieldBytes (fno : Nat) (b : Bytes) : Bytes :=
  varintEncode (fieldKey fno 2) ++ lenDelim b

/-- An `sfixed64` field (wire type 1). -/
def fieldFixed64 (fno : Nat) (n : Nat) : Bytes :=
  varintEncode (fieldKey fno 1) ++ fixed64Encode n

/-- A varint field (wire type 0). -/
def fieldVarint (fno : Nat) (n : Nat) : Bytes :=
  varintEncode (fieldKey fno 0) ++ varintEncode n

/-- Skip an unknown field by wire type (`Reader.skipType`; group wire
types are not produced by any writer of these schemas and are treated
as a decode failure). -/
def skipWire (wire : Nat) (bs : Bytes) : Option Bytes :=
  match wire with
  | 0 => (varintDecode bs).map (fun p => p.2)
  | 1 => if bs.length < 8 then none else some (bs.drop 8)
  | 2 => (readLen bs).map (fun p => p.2)
  | 5 => if bs.length < 4 then none else some (bs.drop 4)
  | _ => none

theorem skipWire_le {wire : Nat} {bs r : Bytes}
    (h : skipWire wire bs = some r) : r.length ≤ bs.length := by
  unfold skipWire at h
  match wire with
  | 0 =>
    simp only at h
    match hv : varintDecode bs with
    | none => rw [hv] at h; simp at h
    | some (n, r1) =>
      rw [hv] at h
      simp at h
      subst h
      exact le_of_lt (varintDecode_lt hv)
  | 1 =>
    simp only at h
    by_cases hl : bs.length < 8
    · simp [hl] at h
    · simp [hl] at h
      simp [← h]
  | 2 =>
    simp only at h
    match hv : readLen bs with
    | none => rw [hv] at h; simp at h
    | some (v, r1) =>
      rw [hv] at h
      simp at h
      subst h
      exact le_of_lt (readLen_lt hv)
  | 3 => simp at h
  | 4 => simp at h
  | 5 =>
    simp only at h
    by_cases hl : bs.length < 4
    · simp [hl] at h
    · simp [hl] at h
      simp [← h]
  | n + 6 => simp at h

/-! ## `InvitePayload` codec — `src/src/proto/invite.ts` -/

/-- The raw `protobufjs` message for `InvitePayload`: non-optional
fields fall back to their proto defaults, optional fields track
presence. -/
structure RawInvitePayload where
  conversationToken : Bytes := []
  creatorInboxId : Bytes := []
  tag : JSStr := []
  name : Option JSStr := none
  description : Option JSStr := none
  imageURL : Option JSStr := none
  conversationExpiresAtUnix : Option Int := none
  expiresAtUnix : Option Int := none
  expiresAfterUse : Bool := false
deriving Repr, DecidableEq

/-- `protobufjs` reader loop for `InvitePayload` (generated-decoder
semantics: dispatch on the field number, skip unknown fields by wire
type). -/
def ipLoop (bs : Bytes) (st : RawInvitePayload) : Option RawInvitePayload :=
  match _hbs : bs with
  | [] => some st
  | _ :: _ =>
    match hk : varintDecode bs with
    | none => none
    | some (key, r1) =>
      have h1 : r1.length < bs.length := varintDecode_lt hk
      match key / 8 with
      | 1 =>
        match hv : readLen r1 with
        | none => none
        | some (v, r2) =>
          have : r2.length < bs.length := lt_trans (readLen_lt hv) h1
          ipLoop r2 { st with conversationToken := v }
      | 2 =>
        match hv : readLen r1 with
        | none => none
        | some (v, r2) =>
          have : r2.length < bs.length := lt_trans (readLen_lt hv) h1
          ipLoop r2 { st with creatorInboxId := v }
      | 3 =>
        match hv : readLen r1 with
        | none => none
        | some (v, r2) =>
          have : r2.length < bs.length := lt_trans (readLen_lt hv) h1
          ipLoop r2 { st with tag := v }
      | 4 =>
        match hv : readLen r1 with
        | none => none
        | some (v, r2) =>
          have : r2.length < bs.length := lt_trans (readLen_lt hv) h1
          ipLoop r2 { st with name := some v }
      | 5 =>
        match hv : readLen r1 with
        | none => none
        | some (v, r2) =>
          have : r2.length < bs.length := lt_trans (readLen_lt hv) h1
          ipLoop r2 { st with description := some v }
      | 6 =>
        match hv : readLen r1 with
        | none => none
        | some (v, r2) =>
          have : r2.length < bs.length := lt_trans (readLen_lt hv) h1
          ipLoop r2 { st with imageURL := some v }
      | 7 =>
        match hv : readFixed64 r1 with
        | none => none
        | some (n, r2) =>
          have : r2.length < bs.length := lt_trans (readFixed64_lt hv) h1
          ipLoop r2 { st with conversationExpiresAtUnix := some (toInt64 n) }
      | 8 =>
        match hv : readFixed64 r1 with
        | none => none
        | some (n, r2) =>
          have : r2.length < bs.length := lt_trans (readFixed64_lt hv) h1
          ipLoop r2 { st with expiresAtUnix := some (toInt64 n) }
      | 9 =>
        match hv : varintDecode r1 with
        | none => none
        | some (n, r2) =>
          have : r2.length < bs.length := lt_trans (varintDecode_lt hv) h1
          ipLoop r2 { st with expiresAfterUse := n ≠ 0 }
      | _ =>
        match hv : skipWire (key % 8) r1 with
        | none => none
        | some r2 =>
          have : r2.length < bs.length := lt_of_le_of_lt (skipWire_le hv) h1
          ipLoop r2 st
termination_by bs.length

/-- `InvitePayloadType.decode(bytes)`. -/
def pbDecodeInvitePayload (bs : Bytes) : Option RawInvitePayload :=
  ipLoop bs {}

/-- The repository's `InvitePayload` interface. -/
structure InvitePayload where
  conversationToken : Bytes
  creatorInboxId : Bytes
  tag : JSStr
  name : Option JSStr := none
  description : Option JSStr := none
  imageURL : Option JSStr := none
  conversationExpiresAtUnix : Option Int := none
  expiresAtUnix : Option Int := none
  expiresAfterUse : Bool := false
deriving Repr, DecidableEq

/-- `encodeInvitePayload`: `create` sets exactly the non-`undefined`
properties (a timestamp passes the `payload.x ? Long.fromBigInt(x) :
undefined` truthiness test only when nonzero, and is masked to 64 bits
by `Long.fromBigInt`); `encode` then writes the set fields in schema
order. -/
def encodeInvitePayload (p : InvitePayload) : Bytes :=
  fieldBytes 1 p.conversationToken ++
  fieldBytes 2 p.creatorInboxId ++
  fieldBytes 3 p.tag ++
  (match p.name with | some s => fieldBytes 4 s | none => []) ++
  (match p.description with | some s => fieldBytes 5 s | none => []) ++
  (match p.imageURL with | some s => fieldBytes 6 s | none => []) ++
  (match p.conversationExpiresAtUnix with
   | some v => if v = 0 then [] else fieldFixed64 7 (toUInt64 v)
   | none => []) ++
  (match p.expiresAtUnix with
   | some v => if v = 0 then [] else fieldFixed64 8 (toUInt64 v)
   | none => []) ++
  fieldVarint 9 (if p.expiresAfterUse then 1 else 0)

/-- The post-processing `decodeInvitePayload` applies to the decoded
message: `message.name || undefined` collapses an empty string to
"unset", and a timestamp whose decoded `Long` prints `"0"` is treated
as unset. -/
def fromRawInvitePayload (r : RawInvitePayload) : InvitePayload where
  conversationToken := r.conversationToken
  creatorInboxId := r.creatorInboxId
  tag := r.tag
  name := match r.name with
    | some s => if s = [] then none else some s
    | none => none
  description := match r.description with
    | some s => if s = [] then none else some s
    | none => none
  imageURL := match r.imageURL with
    | some s => if s = [] then none else some s
    | none => none
  conversationExpiresAtUnix := match r.conversationExpiresAtUnix with
    | some v => if v = 0 then none else some v
    | none => none
  expiresAtUnix := match r.expiresAtUnix with
    | some v => if v = 0 then none else some v
    | none => none
  expiresAfterUse := r.expiresAfterUse

/-- `decodeInvitePayload`. -/
def decodeInvitePayload (bs : Bytes) : Option InvitePayload :=
  (pbDecodeInvitePayload bs).map fromRawInvitePayload

/-! ## `SignedInvite` codec — `src/src/proto/invite.ts` -/

/-- The `SignedInvite` message (raw and repository forms coincide). -/
structure SignedInvite where
  payload : Bytes := []
  signature : Bytes := []
deriving Repr, DecidableEq

/-- Reader loop for `SignedInvite`. -/
def siLoop (bs : Bytes) (st : SignedInvite) : Option SignedInvite :=
  match _hbs : bs with
  | [] => some st
  | _ :: _ =>
    match hk : varintDecode bs with
    | none => none
    | some (key, r1) =>
      have h1 : r1.length < bs.length := varintDecode_lt hk
      match key / 8 with
      | 1 =>
        match hv : readLen r1 with
        | none => none
        | some (v, r2) =>
          have : r2.length < bs.length := lt_trans (readLen_lt hv) h1
          siLoop r2 { st with payload := v }
      | 2 =>
        match hv : readLen r1 with
        | none => none
        | some (v, r2) =>
          have : r2.length < bs.length := lt_trans (readLen_lt hv) h1
          siLoop r2 { st with signature := v }
      | _ =>
        match hv : skipWire (key % 8) r1 with
        | none => none
        | some r2 =>
          have : r2.length < bs.length := lt_of_le_of_lt (skipWire_le hv) h1
          siLoop r2 st
termination_by bs.length

/-- `encodeSignedInvite`. -/
def encodeSignedInvite (si : SignedInvite) : Bytes :=
  fieldBytes 1 si.payload ++ fieldBytes 2 si.signature

/-- `decodeSignedInvite`. -/
def decodeSignedInvite (bs : Bytes) : Option SignedInvite :=
  siLoop bs {}

/-! ## `ConversationCustomMetadata` codec — `conversation-metadata.ts`
(`src/unnamed/part_001`, compiled form in `src/unnamed/part_015`) -/

/-- `ConversationProfile`: the raw message and the repository interface
coincide (the decoder maps `inboxId`, `name`, `image` through
unchanged). -/
structure ConversationProfile where
  inboxId : Bytes := []
  name : Option JSStr := none
  image : Option JSStr := none
deriving Repr, DecidableEq

/-- Reader loop for `ConversationProfile`. -/
def profileLoop (bs : Bytes) (st : ConversationProfile) : Option ConversationProfile :=
  match _hbs : bs with
  | [] => some st
  | _ :: _ =>
    match hk : varintDecode bs with
    | none => none
    | some (key, r1) =>
      have h1 : r1.length < bs.length := varintDecode_lt hk
      match key / 8 with
      | 1 =>
        match hv : readLen r1 with
        | none => none
        | some (v, r2) =>
          have : r2.length < bs.length := lt_trans (readLen_lt hv) h1
          profileLoop r2 { st with inboxId := v }
      | 2 =>
        match hv : readLen r1 with
        | none => none
        | some (v, r2) =>
          have : r2.length < bs.length := lt_trans (readLen_lt hv) h1
          profileLoop r2 { st with name := some v }
      | 3 =>
        match hv : readLen r1 with
        | none => none
        | some (v, r2) =>
          have : r2.length < bs.length := lt_trans (readLen_lt hv) h1
          profileLoop r2 { st with image := some v }
      | _ =>
        match hv : skipWire (key % 8) r1 with
        | none => none
        | some r2 =>
          have : r2.length < bs.length := lt_of_le_of_lt (skipWire_le hv) h1
          profileLoop r2 st
termination_by bs.length

/-- Encoding of one `ConversationProfile` sub-message. -/
def encodeConversationProfile (p : ConversationProfile) : Bytes :=
  fieldBytes 1 p.inboxId ++
  (match p.name with | some s => fieldBytes 2 s | none => []) ++
  (match p.image with | some s => fieldBytes 3 s | none => [])

/-- The `ConversationCustomMetadata` message.  The decoded raw message
and the repository value have the same shape: the decoder's
`message.expiresAtUnix ? BigInt(...) : undefined` keeps any present
`Long` (a `Long` object is truthy even when it is zero), and the same
holds for `imageEncryptionKey` (a `Uint8Array` is truthy even when
empty). -/
structure ConversationCustomMetadata where
  tag : JSStr := []
  profiles : List ConversationProfile := []
  expiresAtUnix : Option Int := none
  imageEncryptionKey : Option Bytes := none
deriving Repr, DecidableEq

/-- Reader loop for `ConversationCustomMetadata`; a `profiles` entry is
decoded by the nested profile decoder and appended. -/
def metaLoop (bs : Bytes) (st : ConversationCustomMetadata) :
    Option ConversationCustomMetadata :=
  match _hbs : bs with
  | [] => some st
  | _ :: _ =>
    match hk : varintDecode bs with
    | none => none
    | some (key, r1) =>
      have h1 : r1.length < bs.length := varintDecode_lt hk
      match key / 8 with
      | 1 =>
        match hv : readLen r1 with
        | none => none
        | some (v, r2) =>
          have : r2.length < bs.length := lt_trans (readLen_lt hv) h1
          metaLoop r2 { st with tag := v }
      | 2 =>
        match hv : readLen r1 with
        | none => none
        | some (v, r2) =>
          have : r2.length < bs.length := lt_trans (readLen_lt hv) h1
          match profileLoop v {} with
          | none => none
          | some p => metaLoop r2 { st with profiles := st.profiles ++ [p] }
      | 3 =>
        match hv : readFixed64 r1 with
        | none => none
        | some (n, r2) =>
          have : r2.length < bs.length := lt_trans (readFixed64_lt hv) h1
          metaLoop r2 { st with expiresAtUnix := some (toInt64 n) }
      | 4 =>
        match hv : readLen r1 with
        | none => none
        | some (v, r2) =>
          have : r2.length < bs.length := lt_trans (readLen_lt hv) h1
          metaLoop r2 { st with imageEncryptionKey := some v }
      | _ =>
        match hv : skipWire (key % 8) r1 with
        | none => none
        | some r2 =>
          have : r2.length < bs.length := lt_of_le_of_lt (skipWire_le hv) h1
          metaLoop r2 st
termination_by bs.length

/-- `encodeConversationMetadata` (same `create`/truthiness semantics as
the invite payload encoder: a zero timestamp is dropped, a present
`imageEncryptionKey` is written even when empty). -/
def encodeConversationMetadata (m : ConversationCustomMetadata) : Bytes :=
  fieldBytes 1 m.tag ++
  (m.profiles.map (fun p => fieldBytes 2 (encodeConversationProfile p))).flatten ++
  (match m.expiresAtUnix with
   | some v => if v = 0 then [] else fieldFixed64 3 (toUInt64 v)
   | none => []) ++
  (match m.imageEncryptionKey with | some k => fieldBytes 4 k | none => [])

/-- `decodeConversationMetadata`: the post-processing keeps present
fields as they are (object truthiness), so it is the identity on the
decoded message. -/
def decodeConversationMetadata (bs : Bytes) : Option ConversationCustomMetadata :=
  metaLoop bs {}

/-! ## Conversation token — `conversation-token.ts`
(`src/unnamed/part_005`) -/

/-- Token format version byte. -/
def FORMAT_VERSION : Nat := 1

/-- Plaintext type byte for a packed UUID. -/
def TYPE_UUID : Nat := 1

/-- Plaintext type byte for a packed string. -/
def TYPE_STRING : Nat := 2

/-- ASCII hex digit, either case (the UUID regex carries the `i` flag). -/
def isHexDigitB (c : Nat) : Bool :=
  (48 ≤ c ∧ c ≤ 57) ∨ (97 ≤ c ∧ c ≤ 102) ∨ (65 ≤ c ∧ c ≤ 70)

/-- The source's `UUID_PATTERN` regex
`^[0-9a-f]{8}-[0-9a-f]{4}-[0-9a-f]{4}-[0-9a-f]{4}-[0-9a-f]{12}$/i`,
written structurally: five hex groups of lengths 8/4/4/4/12 joined by
hyphens (45). -/
def isUuidStr (s : JSStr) : Bool :=
  s.length = 36 ∧
  (s.take 8).all isHexDigitB ∧ s.getD 8 0 = 45 ∧
  ((s.drop 9).take 4).all isHexDigitB ∧ s.getD 13 0 = 45 ∧
  ((s.drop 14).take 4).all isHexDigitB ∧ s.getD 18 0 = 45 ∧
  ((s.drop 19).take 4).all isHexDigitB ∧ s.getD 23 0 = 45 ∧
  (s.drop 24).all isHexDigitB

/-- `uuidToBytes`: strip hyphens, parse 16 two-character slices. -/
def uuidToBytes (uuid : JSStr) : Bytes :=
  (List.range 16).map (fun i =>
    parseIntPair ((uuid.filter (fun c => c ≠ 45)).getD (2 * i) 0)
      ((uuid.filter (fun c => c ≠ 45)).getD (2 * i + 1) 0))

/-- `bytesToUuid`: lowercase hex with hyphens at the canonical
positions. -/
def bytesToUuid (bytes : Bytes) : JSStr :=
  (bytesToHex bytes).take 8 ++ 45 :: ((bytesToHex bytes).drop 8).take 4 ++
    45 :: ((bytesToHex bytes).drop 12).take 4 ++
    45 :: ((bytesToHex bytes).drop 16).take 4 ++ 45 :: (bytesToHex bytes).drop 20

/-- `packConversationId`: UUIDs become `0x01 ∥ 16 raw bytes`; other
strings are length-prefixed UTF-8 (`0x02 ∥ len(1) ∥ bytes` up to 255
bytes, `0x02 ∥ 0x00 ∥ len_be(2) ∥ bytes` beyond — note the source masks
the big-endian length to 16 bits). -/
def packConversationId (conversationId : JSStr) : Bytes :=
  if isUuidStr conversationId then TYPE_UUID :: uuidToBytes conversationId
  else
    let stringBytes := conversationId
    if stringBytes.length ≤ 255 then
      TYPE_STRING :: stringBytes.length :: stringBytes
    else
      TYPE_STRING :: 0 :: (stringBytes.length / 256 % 256) ::
        (stringBytes.length % 256) :: stringBytes

/-- `unpackConversationId`, with its exact length checks. -/
def unpackConversationId (data : Bytes) : Option JSStr :=
  match data with
  | [] => none
  | type :: rest =>
    if type = TYPE_UUID then
      if data.length = 17 then some (bytesToUuid rest) else none
    else if type = TYPE_STRING then
      match rest with
      | [] => none
      | b1 :: rest2 =>
        if b1 = 0 then
          match rest2 with
          | b2 :: b3 :: rest3 =>
            let length := b2 * 256 + b3
            if rest3.length = length then some rest3 else none
          | _ => none
        else
          if rest2.length = b1 then some rest2 else none
    else none

/-! ## External crypto primitives

These stand for `@noble/secp256k1`, `@noble/ciphers` and
`@noble/hashes`, which are dependencies, not repository code.  Each
`Prop` field is a documented contract of the library: the AEAD
round-trips and appends a 16-byte tag, byte outputs are bytes, and a
signature produced by `sign` is a 64-byte compact signature with a
recovery id of at most 3 from which `recoverPublicKey` recovers exactly
the 65-byte uncompressed public key of the signing key.  Failure
(`none`) models a thrown exception and is otherwise unconstrained, so
theorems quantified over `ExtCrypto` cover every possible library
failure. -/
structure ExtCrypto where
  sha256 : Bytes → Bytes
  hkdfSha256 : Bytes → Bytes → Bytes → Bytes
  cipherEncrypt : Bytes → Bytes → Bytes → Bytes → Bytes
  cipherDecrypt : Bytes → Bytes → Bytes → Bytes → Option Bytes
  nobleSign : Bytes → Bytes → Option (Bytes × Nat)
  nobleRecover : Bytes → Nat → Bytes → Option Bytes
  nobleGetPublicKey : Bytes → Option Bytes
  noblePointDecompress : Bytes → Option Bytes
  cipher_roundtrip : ∀ key nonce aad pt,
    cipherDecrypt key nonce aad (cipherEncrypt key nonce aad pt) = some pt
  cipherEncrypt_length : ∀ key nonce aad pt,
    (cipherEncrypt key nonce aad pt).length = pt.length + 16
  cipherEncrypt_bytes : ∀ key nonce aad pt,
    ValidBytes pt → ValidBytes (cipherEncrypt key nonce aad pt)
  sign_spec : ∀ h k c r, nobleSign h k = some (c, r) →
    c.length = 64 ∧ r ≤ 3 ∧ ValidBytes c ∧
    ∃ pub, nobleGetPublicKey k = some pub ∧ pub.length = 65 ∧
      nobleRecover c r h = some pub

/-! ## HKDF wrapper — `src/dist/crypto/hkdf.js` -/

/-- `deriveInviteKey`: HKDF-SHA256 with salt `"ConvosInviteV1"` and
info `"inbox:" ∥ inboxId`. -/
def deriveInviteKey (E : ExtCrypto) (privateKey : Bytes) (inboxId : JSStr) : Bytes :=
  E.hkdfSha256 privateKey (s2b "ConvosInviteV1") (s2b "inbox:" ++ inboxId)

/-! ## ChaCha20-Poly1305 wrapper — `src/dist/crypto/chacha20poly1305.js` -/

/-- Nonce length of the AEAD framing. -/
def NONCE_LENGTH : Nat := 12

/-- Poly1305 tag length. -/
def TAG_LENGTH : Nat := 16

/-- `encrypt`: `nonce ∥ ciphertext-with-tag`.  The 12 random bytes the
source draws are passed in as `nonce`. -/
def chachaEncrypt (E : ExtCrypto) (nonce : Bytes) (plaintext key aad : Bytes) : Bytes :=
  nonce ++ E.cipherEncrypt key nonce aad plaintext

/-- `decrypt`: split nonce and ciphertext, authenticated decrypt. -/
def chachaDecrypt (E : ExtCrypto) (combined key aad : Bytes) : Option Bytes :=
  if combined.length < NONCE_LENGTH + TAG_LENGTH then none
  else E.cipherDecrypt key (combined.take NONCE_LENGTH) aad (combined.drop NONCE_LENGTH)

/-! ## Conversation token encryption (`src/unnamed/part_005`) -/

/-- `encryptConversationToken`: derive the key, pack, AEAD-encrypt with
the inbox id as AAD, prepend the format version byte. -/
def encryptConversationToken (E : ExtCrypto) (nonce : Bytes)
    (conversationId creatorInboxId : JSStr) (privateKey : Bytes) : Bytes :=
  let key := deriveInviteKey E privateKey creatorInboxId
  let aad := creatorInboxId
  let plaintext := packConversationId conversationId
  FORMAT_VERSION :: chachaEncrypt E nonce plaintext key aad

/-- `decryptConversationToken`: check the version byte, recompute key
and AAD, decrypt and unpack. -/
def decryptConversationToken (E : ExtCrypto) (tokenBytes : Bytes)
    (creatorInboxId : JSStr) (privateKey : Bytes) : Option JSStr :=
  match tokenBytes with
  | [] => none
  | version :: encrypted =>
    if version ≠ FORMAT_VERSION then none
    else
      let key := deriveInviteKey E privateKey creatorInboxId
      let aad := creatorInboxId
      match chachaDecrypt E encrypted key aad with
      | none => none
      | some plaintext => unpackConversationId plaintext

/-! ## secp256k1 wrappers — `src/dist/crypto/secp256k1.js` -/

/-- `signWithRecovery`: 65 bytes `r ∥ s ∥ recovery`. -/
def signWithRecovery (E : ExtCrypto) (messageHash privateKey : Bytes) : Option Bytes :=
  match E.nobleSign messageHash privateKey with
  | none => none
  | some (compactSig, recoveryId) => some (compactSig ++ [recoveryId])

/-- `recoverPublicKey`: the repository's own validation (length 65,
recovery id at most 3) in front of the library recovery. -/
def recoverPublicKey (E : ExtCrypto) (messageHash signature : Bytes) : Option Bytes :=
  if signature.length ≠ 65 then none
  else
    let compactSig := signature.take 64
    let recoveryId := signature.getD 64 0
    if recoveryId > 3 then none
    else E.nobleRecover compactSig recoveryId messageHash

/-- `getPublicKey` (uncompressed). -/
def getPublicKey (E : ExtCrypto) (privateKey : Bytes) : Option Bytes :=
  E.nobleGetPublicKey privateKey

/-- `constantTimeEqual`: length check, then OR-accumulated XOR. -/
def constantTimeEqual (a b : Bytes) : Bool :=
  if a.length ≠ b.length then false
  else ((a.zip b).foldl (fun acc p => acc ||| (p.1 ^^^ p.2)) 0) = 0

/-- `normalizePublicKey`: 65-byte keys pass through, 33-byte compressed
keys are decompressed, anything else throws. -/
def normalizePublicKey (E : ExtCrypto) (publicKey : Bytes) : Option Bytes :=
  if publicKey.length = 65 then some publicKey
  else if publicKey.length = 33 then E.noblePointDecompress publicKey
  else none

/-! ## Signed invites — `src/src/invite/signed-invite.ts` -/

/-- `CreateInviteOptions`. -/
structure CreateInviteOptions where
  conversationId : JSStr
  inviteTag : JSStr
  creatorInboxId : JSStr
  privateKey : Bytes
  name : Option JSStr := none
  description : Option JSStr := none
  imageURL : Option JSStr := none
  expiresAt : Option Int := none
  conversationExpiresAt : Option Int := none
  expiresAfterUse : Option Bool := none
deriving Repr

/-- `ParsedInvite`. -/
structure ParsedInvite where
  signedInvite : SignedInvite
  payload : InvitePayload
  creatorInboxId : JSStr
  isExpired : Bool
  isConversationExpired : Bool
deriving Repr, DecidableEq

/-- The `InvitePayload` value built by `createInviteSlug` (timestamps
are already floored to whole epoch seconds by the `Date` model). -/
def buildInvitePayload (E : ExtCrypto) (nonce : Bytes) (o : CreateInviteOptions) :
    Option InvitePayload :=
  match hexToBytes o.creatorInboxId with
  | none => none
  | some inboxBytes =>
    some
      { conversationToken :=
          encryptConversationToken E nonce o.conversationId o.creatorInboxId o.privateKey
        creatorInboxId := inboxBytes
        tag := o.inviteTag
        name := o.name
        description := o.description
        imageURL := o.imageURL
        expiresAfterUse := o.expiresAfterUse.getD false
        expiresAtUnix := o.expiresAt
        conversationExpiresAtUnix := o.conversationExpiresAt }

/-- `createInviteSlug`: encrypt, build, encode, hash, sign, wrap,
encode to slug.  `nonce` is the AEAD randomness drawn inside
`encrypt`. -/
def createInviteSlug (E : ExtCrypto) (P : Pako) (nonce : Bytes)
    (o : CreateInviteOptions) : Option JSStr := do
  let payload ← buildInvitePayload E nonce o
  let payloadBytes := encodeInvitePayload payload
  let messageHash := E.sha256 payloadBytes
  let signature ← signWithRecovery E messageHash o.privateKey
  let signedInvite : SignedInvite := { payload := payloadBytes, signature := signature }
  let signedInviteBytes := encodeSignedInvite signedInvite
  pure (encodeToSlug P signedInviteBytes)

/-- `parseInviteSlug`; `now` is `Math.floor(Date.now() / 1000)`. -/
def parseInviteSlug (P : Pako) (now : Int) (slugOrUrl : JSStr) : Option ParsedInvite := do
  let slug := parseInviteCode slugOrUrl
  let bytes ← decodeFromSlug P slug
  let signedInvite ← decodeSignedInvite bytes
  let payload ← decodeInvitePayload signedInvite.payload
  pure
    { signedInvite := signedInvite
      payload := payload
      creatorInboxId := bytesToHex payload.creatorInboxId
      isExpired :=
        match payload.expiresAtUnix with
        | some v => decide (v < now)
        | none => false
      isConversationExpired :=
        match payload.conversationExpiresAtUnix with
        | some v => decide (v < now)
        | none => false }

/-- `verifyInvite`: recover, normalize both keys, constant-time
compare; every exception in the body is caught and becomes `false`. -/
def verifyInvite (E : ExtCrypto) (signedInvite : SignedInvite)
    (expectedPublicKey : Bytes) : Bool :=
  let attempt : Option Bool := do
    let messageHash := E.sha256 signedInvite.payload
    let recoveredPublicKey ← recoverPublicKey E messageHash signedInvite.signature
    let normalizedRecovered ← normalizePublicKey E recoveredPublicKey
    let normalizedExpected ← normalizePublicKey E expectedPublicKey
    pure (constantTimeEqual normalizedRecovered normalizedExpected)
  match attempt with
  | some b => b
  | none => false

/-- `verifyInviteWithPrivateKey`: the public-key derivation happens
before (outside) the `try`/`catch` of `verifyInvite`, so a derivation
failure propagates (`none`) instead of yielding `false`. -/
def verifyInviteWithPrivateKey (E : ExtCrypto) (signedInvite : SignedInvite)
    (privateKey : Bytes) : Option Bool :=
  match getPublicKey E privateKey with
  | none => none
  | some publicKey => some (verifyInvite E signedInvite publicKey)

/-- `decryptInviteConversationId`: decrypts with the inbox id taken
from the parsed payload. -/
def decryptInviteConversationId (E : ExtCrypto) (parsedInvite : ParsedInvite)
    (privateKey : Bytes) : Option JSStr :=
  decryptConversationToken E parsedInvite.payload.conversationToken
    parsedInvite.creatorInboxId privateKey

/-! ## Invite join-error content type — `invite-join-error.ts`
(compiled form in `src/unnamed/part_009`) -/

/-- `InviteJoinErrorType`. -/
inductive InviteJoinErrorType where
  | conversationExpired
  | genericFailure
  | unknown
deriving Repr, DecidableEq

/-- `InviteJoinError`; the timestamp (`new Date()`) is its epoch
time. -/
structure InviteJoinError where
  errorType : InviteJoinErrorType
  inviteTag : JSStr
  timestamp : Int
deriving Repr, DecidableEq

/-- `createConversationExpiredError`. -/
def createConversationExpiredError (inviteTag : JSStr) (now : Int) : InviteJoinError where
  errorType := .conversationExpired
  inviteTag := inviteTag
  timestamp := now

/-- `createGenericFailureError`. -/
def createGenericFailureError (inviteTag : JSStr) (now : Int) : InviteJoinError where
  errorType := .genericFailure
  inviteTag := inviteTag
  timestamp := now

/-! ## Middleware — `src/src/middleware/convos-middleware.ts` -/

/-- Alphanumeric, `_`, `-` or `*`: the character class of the
`^[A-Za-z0-9_\-*]+$` heuristic. -/
def isSlugChar (c : Nat) : Bool :=
  (65 ≤ c ∧ c ≤ 90) ∨ (97 ≤ c ∧ c ≤ 122) ∨ (48 ≤ c ∧ c ≤ 57) ∨
    c = 95 ∨ c = 45 ∨ c = 42

/-- `looksLikeInviteSlug`: trimmed length at least 50 and only
base64url-ish characters. -/
def looksLikeInviteSlug (text : JSStr) : Bool :=
  let trimmed := jsTrim text
  if trimmed.length < 50 then false
  else trimmed.all isSlugChar

/-- The observable substrate effects of one `handleMessage` run. -/
inductive MWAction where
  | blockSender (inboxId : JSStr)
  | sendError (error : InviteJoinError)
  | emitInvite (joinerInboxId conversationId inviteTag : JSStr)
deriving Repr, DecidableEq

/-- `handleMessage`, as a pure decision function.  Inputs: the message
text (or `none` for non-text content, covering `extractText`), the
sender, the agent's own inbox id and private key, the wall clock, the
substrate's conversation lookup, and the timestamp used for error
contents.  The result is `none` when an uncaught exception propagates
(only `verifyInviteWithPrivateKey` can throw here), otherwise the
handled flag (`true` means the message is consumed and `next()` is not
called) together with the ordered list of substrate actions.  Handler
dispatch after `emitInvite` is outside the modelled boundary. -/
def handleMessage (E : ExtCrypto) (P : Pako) (self : JSStr) (privateKey : Bytes)
    (now : Int) (convExists : JSStr → Bool) (ts : Int)
    (content : Option JSStr) (sender : JSStr) : Option (Bool × List MWAction) :=
  match content with
  | none => some (false, [])
  | some messageText =>
    if sender = self then some (false, [])
    else
      match parseInviteSlug P now messageText with
      | none =>
        if looksLikeInviteSlug messageText then some (true, [.blockSender sender])
        else some (false, [])
      | some parsedInvite =>
        if parsedInvite.creatorInboxId ≠ self then some (true, [.blockSender sender])
        else
          match verifyInviteWithPrivateKey E parsedInvite.signedInvite privateKey with
          | none => none
          | some verified =>
            if ¬ verified then some (true, [.blockSender sender])
            else
              let inviteTag := parsedInvite.payload.tag
              if parsedInvite.isExpired ∨ parsedInvite.isConversationExpired then
                some (true, [.sendError (createConversationExpiredError inviteTag ts)])
              else
                match decryptInviteConversationId E parsedInvite privateKey with
                | none => some (true, [.blockSender sender])
                | some conversationId =>
                  if ¬ convExists conversationId then
                    some (true, [.sendError (createConversationExpiredError inviteTag ts)])
                  else
                    some (true, [.emitInvite sender conversationId inviteTag])

/-! ## Metadata codec wrappers — `convos-middleware.ts` -/

/-- `encodeMetadata`: protobuf, compress-if-smaller, base64url. -/
def encodeMetadata (P : Pako) (metadata : ConversationCustomMetadata) : JSStr :=
  base64UrlEncode (compressIfSmaller P (encodeConversationMetadata metadata))

/-- `decodeMetadata`. -/
def decodeMetadata (P : Pako) (encoded : JSStr) : Option ConversationCustomMetadata := do
  let compressed ← base64UrlDecode encoded
  let bytes ← decompress P compressed
  decodeConversationMetadata bytes

/-- `getInviteTag`. -/
def getInviteTag (P : Pako) (encodedMetadata : JSStr) : Option JSStr :=
  (decodeMetadata P encodedMetadata).map (fun m => m.tag)

/-! ## Group profile upsert — `src/src/middleware/convos-group.ts` -/

/-- The profile-list transformation inside `setConversationProfile`:
find an existing entry whose `inboxId` prints to the caller's hex inbox
id and replace it, else append a new entry. -/
def upsertProfile (profiles : List ConversationProfile) (inboxIdHex : JSStr)
    (inboxIdBytes : Bytes) (name image : Option JSStr) : List ConversationProfile :=
  let profile : ConversationProfile :=
    { inboxId := inboxIdBytes, name := name, image := image }
  match profiles.findIdx? (fun p => bytesToHex p.inboxId = inboxIdHex) with
  | some i => profiles.set i profile
  | none => profiles ++ [profile]

/-- The metadata transformation of `setConversationProfile` on an
already-decoded metadata value (`hexToBytes` throws on an odd-length
inbox id). -/
def setConversationProfileMeta (metadata : ConversationCustomMetadata)
    (inboxIdHex : JSStr) (name image : Option JSStr) :
    Option ConversationCustomMetadata :=
  match hexToBytes inboxIdHex with
  | none => none
  | some inboxIdBytes =>
    some { metadata with
      profiles := upsertProfile metadata.profiles inboxIdHex inboxIdBytes name image }

/-! ## Invite URLs — `src/dist/invite/encoding.js` and the compiled
middleware constructor (`src/dist/middleware/convos-middleware.js`) -/

/-- `encodeURIComponent` on a UTF-8 byte: unreserved characters pass
through, everything else is percent-encoded with uppercase hex. -/
def uriUnreserved (c : Nat) : Bool :=
  (65 ≤ c ∧ c ≤ 90) ∨ (97 ≤ c ∧ c ≤ 122) ∨ (48 ≤ c ∧ c ≤ 57) ∨
    c = 45 ∨ c = 95 ∨ c = 46 ∨ c = 33 ∨ c = 126 ∨ c = 42 ∨ c = 39 ∨
    c = 40 ∨ c = 41

/-- Uppercase hex digit. -/
def hexDigitUpper (v : Nat) : Nat := if v < 10 then v + 48 else v + 55

/-- `encodeURIComponent` over the byte model. -/
def encodeURIComponent (s : JSStr) : JSStr :=
  s.flatMap (fun c =>
    if uriUnreserved c then [c]
    else [37, hexDigitUpper (c / 16 % 16), hexDigitUpper (c % 16)])

/-- `getInviteBaseURL` (default environment `"dev"`). -/
def getInviteBaseURL (env : JSStr) : JSStr :=
  if env = s2b "production" then s2b "https://popup.convos.org/v2"
  else s2b "https://dev.convos.org/v2"

/-- `generateInviteURL`. -/
def generateInviteURL (slug baseURL : JSStr) : JSStr :=
  baseURL ++ s2b "?i=" ++ encodeURIComponent slug

/-- The compiled middleware constructor's base-URL selection:
`options.inviteBaseURL ?? getInviteBaseURL(options.env)`, with
`getInviteBaseURL` defaulting `env` to `"dev"`. -/
def middlewareInviteBaseURL (inviteBaseURL : Option JSStr) (env : Option JSStr) : JSStr :=
  inviteBaseURL.getD (getInviteBaseURL (env.getD (s2b "dev")))

/-- ASCII lower-casing (what `toLowerCase` does on the characters that
occur in hex strings and UUIDs). -/
def lowerChar (c : Nat) : Nat := if 65 ≤ c ∧ c ≤ 90 then c + 32 else c

/-- Lower-case a string byte-wise. -/
def lowerStr (s : JSStr) : JSStr := s.map lowerChar

/-! ## Concrete instances of the external primitives

Small executable codecs satisfying the library contracts, used to
instantiate the parametric theorems at concrete inputs.  They are
behavioural stand-ins, not models of the real algorithms: every theorem
about the repository's code is proved for arbitrary instances. -/

/-- A concrete DEFLATE stand-in (prefix framing). -/
def pakoToy : Pako where
  deflate := fun b => 0 :: b
  inflate := fun b => match b with | 0 :: t => some t | _ => none
  inflate_deflate := by intro b; rfl
  deflate_bytes := by
    intro b hb x hx
    rcases List.mem_cons.mp hx with h | h
    · omega
    · exact hb x h

/-- A concrete crypto stand-in: identity hash and KDF, an AEAD that
appends a 16-byte tag, and a signature scheme that embeds the key
material. -/
def extCryptoToy : ExtCrypto where
  sha256 := fun b => b
  hkdfSha256 := fun ikm _ _ => ikm
  cipherEncrypt := fun _ _ _ pt => pt ++ List.replicate 16 0
  cipherDecrypt := fun _ _ _ c => some (c.take (c.length - 16))
  nobleSign := fun _ k =>
    if k.length = 32 ∧ ValidBytes k then some (k ++ k, 0) else none
  nobleRecover := fun c r _ =>
    if c.length = 64 ∧ r = 0 then some (4 :: c) else none
  nobleGetPublicKey := fun k =>
    if k.length = 32 ∧ ValidBytes k then some (4 :: k ++ k) else none
  noblePointDecompress := fun _ => none
  cipher_roundtrip := by
    intro key nonce aad pt
    simp
  cipherEncrypt_length := by
    intro key nonce aad pt
    simp
  cipherEncrypt_bytes := by
    intro key nonce aad pt h x hx
    rcases List.mem_append.mp hx with h2 | h2
    · exact h x h2
    · have := List.eq_of_mem_replicate h2
      omega
  sign_spec := by
    intro h k c r hs
    by_cases hk : k.length = 32 ∧ ValidBytes k
    · simp only [hk, and_self, if_true, Option.some.injEq, Prod.mk.injEq] at hs
      obtain ⟨rfl, rfl⟩ := hs
      have hklen := hk.1
      refine ⟨by simp only [List.length_append]; omega, by omega, ?_, 4 :: k ++ k, ?_, ?_, ?_⟩
      · intro x hx
        rcases List.mem_append.mp hx with h2 | h2
        · exact hk.2 x h2
        · exact hk.2 x h2
      · simp [hk]
      · simp only [List.length_cons, List.length_append]
        omega
      · simp only [List.length_append]
        have h64 : k.length + k.length = 64 := by omega
        simp [h64]
    · simp [hk] at hs

/-! ## Lemmas: base64url round-trip -/

theorem b64Val_b64Char : ∀ s < 64, b64Val (b64Char s) = some s := by decide

theorem b64Char_range : ∀ s, b64Char s = 45 ∨ b64Char s = 95 ∨
    (48 ≤ b64Char s ∧ b64Char s ≤ 57) ∨ (65 ≤ b64Char s ∧ b64Char s ≤ 90) ∨
    (97 ≤ b64Char s ∧ b64Char s ≤ 122) := by
  intro s
  unfold b64Char
  by_cases h1 : s < 26
  · simp [h1]; omega
  by_cases h2 : s < 52
  · simp [h1, h2]; omega
  by_cases h3 : s < 62
  · simp [h1, h2, h3]; omega
  by_cases h4 : s = 62
  · simp [h1, h2, h3, h4]
  · simp [h1, h2, h3, h4]

theorem base64UrlEncode_chars {b : Bytes} :
    ∀ c ∈ base64UrlEncode b, c = 45 ∨ c = 95 ∨ (48 ≤ c ∧ c ≤ 57) ∨
      (65 ≤ c ∧ c ≤ 90) ∨ (97 ≤ c ∧ c ≤ 122) := by
  induction b using base64UrlEncode.induct with
  | case1 =>
    intro c hc
    simp [base64UrlEncode] at hc
  | case2 a =>
    intro c hc
    simp only [base64UrlEncode, List.mem_cons, List.not_mem_nil, or_false] at hc
    rcases hc with rfl | rfl
    · exact b64Char_range _
    · exact b64Char_range _
  | case3 a b =>
    intro c hc
    simp only [base64UrlEncode, List.mem_cons, List.not_mem_nil, or_false] at hc
    rcases hc with rfl | rfl | rfl
    · exact b64Char_range _
    · exact b64Char_range _
    · exact b64Char_range _
  | case4 a b cc t ih =>
    intro c hc
    simp only [base64UrlEncode, List.mem_cons] at hc
    rcases hc with rfl | rfl | rfl | rfl | hc
    · exact b64Char_range _
    · exact b64Char_range _
    · exact b64Char_range _
    · exact b64Char_range _
    · exact ih c hc

theorem base64UrlDecode_encode {b : Bytes} (hb : ValidBytes b) :
    base64UrlDecode (base64UrlEncode b) = some b := by
  induction b using base64UrlEncode.induct with
  | case1 => rfl
  | case2 a =>
    have ha : a < 256 := hb a (by simp)
    simp only [base64UrlEncode, base64UrlDecode]
    rw [b64Val_b64Char (a / 4) (by omega), b64Val_b64Char (a % 4 * 16) (by omega)]
    simp only [Option.bind_eq_bind, Option.some_bind, Option.some.injEq]
    have : a / 4 * 4 + a % 4 * 16 / 16 = a := by omega
    rw [this]
    rfl
  | case3 a b =>
    have ha : a < 256 := hb a (by simp)
    have hbb : b < 256 := hb b (by simp)
    simp only [base64UrlEncode, base64UrlDecode]
    rw [b64Val_b64Char (a / 4) (by omega), b64Val_b64Char (a % 4 * 16 + b / 16) (by omega),
      b64Val_b64Char (b % 16 * 4) (by omega)]
    simp only [Option.bind_eq_bind, Option.some_bind, Option.some.injEq]
    have h1 : a / 4 * 4 + (a % 4 * 16 + b / 16) / 16 = a := by omega
    have h2 : (a % 4 * 16 + b / 16) % 16 * 16 + b % 16 * 4 / 4 = b := by omega
    rw [h1, h2]
    rfl
  | case4 a b cc t ih =>
    have ha : a < 256 := hb a (by simp)
    have hbb : b < 256 := hb b (by simp)
    have hcc : cc < 256 := hb cc (by simp)
    have ht : ValidBytes t := by
      intro x hx
      exact hb x (by simp [hx])
    simp only [base64UrlEncode]
    have hdec :
        base64UrlDecode (b64Char (a / 4) :: b64Char (a % 4 * 16 + b / 16) ::
          b64Char (b % 16 * 4 + cc / 64) :: b64Char (cc % 64) :: base64UrlEncode t) =
        (do
          let s1 ← b64Val (b64Char (a / 4))
          let s2 ← b64Val (b64Char (a % 4 * 16 + b / 16))
          let s3 ← b64Val (b64Char (b % 16 * 4 + cc / 64))
          let s4 ← b64Val (b64Char (cc % 64))
          let rest ← base64UrlDecode (base64UrlEncode t)
          pure ((s1 * 4 + s2 / 16) :: (s2 % 16 * 16 + s3 / 4) ::
            (s3 % 4 * 64 + s4) :: rest)) := by
      rw [base64UrlDecode]
    rw [hdec, b64Val_b64Char (a / 4) (by omega),
      b64Val_b64Char (a % 4 * 16 + b / 16) (by omega),
      b64Val_b64Char (b % 16 * 4 + cc / 64) (by omega),
      b64Val_b64Char (cc % 64) (by omega), ih ht]
    simp only [Option.bind_eq_bind, Option.some_bind, Option.some.injEq]
    have h1 : a / 4 * 4 + (a % 4 * 16 + b / 16) / 16 = a := by omega
    have h2 : (a % 4 * 16 + b / 16) % 16 * 16 + (b % 16 * 4 + cc / 64) / 4 = b := by omega
    have h3 : (b % 16 * 4 + cc / 64) % 4 * 64 + cc % 64 = cc := by omega
    rw [h1, h2, h3]
    rfl

/-! ## Lemmas: compression framing -/

theorem compressIfSmaller_bytes {P : Pako} {x : Bytes} (hx : ValidBytes x) :
    ValidBytes (compressIfSmaller P x) := by
  unfold compressIfSmaller
  by_cases h1 : x.length < MIN_SIZE_FOR_COMPRESSION
  · simpa [h1] using hx
  · simp only [h1, if_false]
    by_cases h2 : (P.deflate x).length + 1 < x.length
    · simp only [h2, if_true]
      intro c hc
      rcases List.mem_cons.mp hc with rfl | hc
      · norm_num [COMPRESSION_MARKER]
      · exact P.deflate_bytes x hx c hc
    · simpa [h2] using hx

theorem decompress_no_marker {P : Pako} {x : Bytes}
    (hmark : x.headD 0 ≠ COMPRESSION_MARKER) : decompress P x = some x := by
  unfold decompress
  rw [if_pos (Or.inr hmark)]

/-- Either the input is under the decompression-bomb cap, or DEFLATE
does not shrink it (in which case `compressIfSmaller` keeps it
uncompressed and the cap is never consulted). -/
def SizeOk (P : Pako) (x : Bytes) : Prop :=
  x.length ≤ MAX_DECOMPRESSED_SIZE ∨ x.length ≤ (P.deflate x).length + 1

theorem decompress_compressIfSmaller {P : Pako} {x : Bytes}
    (hmark : x.headD 0 ≠ COMPRESSION_MARKER) (hsize : SizeOk P x) :
    decompress P (compressIfSmaller P x) = some x := by
  unfold compressIfSmaller
  by_cases h1 : x.length < MIN_SIZE_FOR_COMPRESSION
  · rw [if_pos h1]
    exact decompress_no_marker hmark
  · rw [if_neg h1]
    by_cases h2 : (P.deflate x).length + 1 < x.length
    · simp only [h2, if_true]
      unfold decompress
      rw [if_neg (by simp)]
      simp only [List.drop_succ_cons, List.drop_zero, P.inflate_deflate]
      have hle : x.length ≤ MAX_DECOMPRESSED_SIZE := by
        rcases hsize with h | h
        · exact h
        · omega
      have : ¬ x.length > MAX_DECOMPRESSED_SIZE := by omega
      simp [this]
    · simp only [h2, if_false]
      exact decompress_no_marker hmark

/-- The toy codec never shrinks its input, so every input is `SizeOk`
for it. -/
theorem pakoToy_sizeOk (x : Bytes) : SizeOk pakoToy x := by
  right
  show x.length ≤ (pakoToy.deflate x).length + 1
  have : pakoToy.deflate x = 0 :: x := rfl
  rw [this]
  simp
  omega

/-! ## Lemmas: separator chunking, trimming, code extraction -/

theorem stripSeparators_eq_self {s : JSStr} (h : IMESSAGE_SEPARATOR ∉ s) :
    stripSeparators s = s := by
  unfold stripSeparators
  apply List.filter_eq_self.mpr
  intro a ha
  simp only [decide_eq_true_eq]
  intro heq
  exact h (heq ▸ ha)

theorem stripSeparators_insertSeparators {s : JSStr} (h : IMESSAGE_SEPARATOR ∉ s) :
    stripSeparators (insertSeparators s) = s := by
  induction s using insertSeparators.induct with
  | case1 s hle =>
    rw [insertSeparators, dif_pos hle]
    exact stripSeparators_eq_self h
  | case2 s hgt hlen ih =>
    rw [insertSeparators, dif_neg hgt]
    unfold stripSeparators at *
    rw [List.filter_append]
    have htake : (s.take IMESSAGE_CHUNK_SIZE).filter (fun c => c ≠ IMESSAGE_SEPARATOR) =
        s.take IMESSAGE_CHUNK_SIZE := by
      apply List.filter_eq_self.mpr
      intro a ha
      simp only [decide_eq_true_eq]
      intro heq
      exact h (heq ▸ List.mem_of_mem_take ha)
    have hdrop : IMESSAGE_SEPARATOR ∉ s.drop IMESSAGE_CHUNK_SIZE := by
      intro hmem
      exact h (List.mem_of_mem_drop hmem)
    rw [htake]
    have hsep : (IMESSAGE_SEPARATOR :: insertSeparators (s.drop IMESSAGE_CHUNK_SIZE)).filter
        (fun c => c ≠ IMESSAGE_SEPARATOR) =
        (insertSeparators (s.drop IMESSAGE_CHUNK_SIZE)).filter
          (fun c => c ≠ IMESSAGE_SEPARATOR) := by
      simp
    rw [hsep, ih hdrop]
    exact (List.take_append_drop _ s)

theorem insertSeparators_chars {s : JSStr} :
    ∀ c ∈ insertSeparators s, c ∈ s ∨ c = IMESSAGE_SEPARATOR := by
  induction s using insertSeparators.induct with
  | case1 s hle =>
    rw [insertSeparators, dif_pos hle]
    intro c hc
    exact Or.inl hc
  | case2 s hgt hlen ih =>
    rw [insertSeparators, dif_neg hgt]
    intro c hc
    rcases List.mem_append.mp hc with hc | hc
    · exact Or.inl (List.mem_of_mem_take hc)
    · rcases List.mem_cons.mp hc with rfl | hc
      · exact Or.inr rfl
      · rcases ih c hc with hm | hm
        · exact Or.inl (List.mem_of_mem_drop hm)
        · exact Or.inr hm

theorem dropWhile_eq_self_of_none {p : Nat → Bool} {s : JSStr}
    (h : ∀ c ∈ s, ¬ p c) : s.dropWhile p = s := by
  cases s with
  | nil => rfl
  | cons a t =>
    have : p a = false := by
      have := h a (by simp)
      simpa using this
    simp [List.dropWhile_cons, this]

theorem jsTrim_eq_self {s : JSStr} (h : ∀ c ∈ s, ¬ isJsWhitespace c) :
    jsTrim s = s := by
  unfold jsTrim
  rw [dropWhile_eq_self_of_none h]
  rw [dropWhile_eq_self_of_none (by intro c hc; exact h c (List.mem_reverse.mp hc))]
  exact List.reverse_reverse s

theorem parseInviteCode_raw {s : JSStr} (hws : ∀ c ∈ s, ¬ isJsWhitespace c)
    (hcolon : (58 : Nat) ∉ s) : parseInviteCode s = s := by
  unfold parseInviteCode
  rw [jsTrim_eq_self hws]
  simp [hcolon]

/-! ## Lemmas: slug pipeline round-trip -/

theorem encodeToSlug_chars {P : Pako} {b : Bytes} :
    ∀ c ∈ encodeToSlug P b, isSlugChar c = true := by
  intro c hc
  unfold encodeToSlug at hc
  rcases insertSeparators_chars c hc with hm | rfl
  · have := base64UrlEncode_chars c hm
    unfold isSlugChar
    simp only [decide_eq_true_eq]
    omega
  · unfold isSlugChar IMESSAGE_SEPARATOR
    simp

theorem slugChar_not_ws {c : Nat} (h : isSlugChar c = true) : ¬ isJsWhitespace c := by
  unfold isSlugChar at h
  unfold isJsWhitespace
  simp only [decide_eq_true_eq] at *
  omega

theorem slugChar_ne_colon {c : Nat} (h : isSlugChar c = true) : c ≠ 58 := by
  unfold isSlugChar at h
  simp only [decide_eq_true_eq] at h
  omega

theorem parseInviteCode_encodeToSlug {P : Pako} {b : Bytes} :
    parseInviteCode (encodeToSlug P b) = encodeToSlug P b := by
  apply parseInviteCode_raw
  · intro c hc
    exact slugChar_not_ws (encodeToSlug_chars c hc)
  · intro hc
    exact slugChar_ne_colon (encodeToSlug_chars 58 hc) rfl

theorem decodeFromSlug_encodeToSlug {P : Pako} {b : Bytes} (hb : ValidBytes b)
    (hmark : b.headD 0 ≠ COMPRESSION_MARKER) (hsize : SizeOk P b) :
    decodeFromSlug P (encodeToSlug P b) = some b := by
  unfold decodeFromSlug encodeToSlug
  have hnosep : IMESSAGE_SEPARATOR ∉ base64UrlEncode (compressIfSmaller P b) := by
    intro hmem
    have := base64UrlEncode_chars IMESSAGE_SEPARATOR hmem
    unfold IMESSAGE_SEPARATOR at this
    omega
  rw [stripSeparators_insertSeparators hnosep,
    base64UrlDecode_encode (compressIfSmaller_bytes hb)]
  simpa using decompress_compressIfSmaller hmark hsize

/-! ## Lemmas: hex round-trip -/

/-- Lowercase hex digit character. -/
def isLowerHexDigit (c : Nat) : Prop := (48 ≤ c ∧ c ≤ 57) ∨ (97 ≤ c ∧ c ≤ 102)

instance (c : Nat) : Decidable (isLowerHexDigit c) := by
  unfold isLowerHexDigit; infer_instance

/-- Canonical (lowercase, even-length) hex string. -/
def IsCanonHex (s : JSStr) : Prop := s.length % 2 = 0 ∧ ∀ c ∈ s, isLowerHexDigit c

instance (s : JSStr) : Decidable (IsCanonHex s) := by
  unfold IsCanonHex; infer_instance

theorem hexVal_lt {c v : Nat} (h : hexVal c = some v) : v < 16 := by
  unfold hexVal at h
  by_cases h1 : 48 ≤ c ∧ c ≤ 57
  · simp [h1] at h; omega
  by_cases h2 : 97 ≤ c ∧ c ≤ 102
  · simp [h1, h2] at h; omega
  by_cases h3 : 65 ≤ c ∧ c ≤ 70
  · simp [h1, h2, h3] at h; omega
  · simp [h1, h2, h3] at h

theorem parseIntPair_lt (c1 c2 : Nat) : parseIntPair c1 c2 < 256 := by
  cases h1 : hexVal c1 with
  | none => simp [parseIntPair, h1]
  | some a =>
    cases h2 : hexVal c2 with
    | none =>
      have := hexVal_lt h1
      simp [parseIntPair, h1, h2]
      omega
    | some b =>
      have := hexVal_lt h1
      have := hexVal_lt h2
      simp [parseIntPair, h1, h2]
      omega

theorem hexPairs_bytes (s : JSStr) : ValidBytes (hexPairs s) := by
  induction s using hexPairs.induct with
  | case1 =>
    intro x hx
    simp [hexPairs] at hx
  | case2 c =>
    intro x hx
    simp [hexPairs] at hx
  | case3 c1 c2 t ih =>
    intro x hx
    rw [hexPairs] at hx
    rcases List.mem_cons.mp hx with rfl | hx
    · exact parseIntPair_lt c1 c2
    · exact ih x hx

theorem hexVal_lower {c : Nat} (h : isLowerHexDigit c) :
    ∃ v, hexVal c = some v ∧ v < 16 ∧ hexDigit v = c := by
  unfold isLowerHexDigit at h
  rcases h with h | h
  · refine ⟨c - 48, ?_, by omega, ?_⟩
    · unfold hexVal
      rw [if_pos h]
    · unfold hexDigit
      rw [if_pos (by omega)]
      omega
  · refine ⟨c - 87, ?_, by omega, ?_⟩
    · unfold hexVal
      rw [if_neg (by omega), if_pos h]
    · unfold hexDigit
      rw [if_neg (by omega)]
      omega

theorem byteToHexPair_parseIntPair {c1 c2 : Nat}
    (h1 : isLowerHexDigit c1) (h2 : isLowerHexDigit c2) :
    byteToHexPair (parseIntPair c1 c2) = [c1, c2] := by
  obtain ⟨v1, hv1, hlt1, hd1⟩ := hexVal_lower h1
  obtain ⟨v2, hv2, hlt2, hd2⟩ := hexVal_lower h2
  unfold parseIntPair
  rw [hv1, hv2]
  unfold byteToHexPair
  have e1 : (16 * v1 + v2) / 16 % 16 = v1 := by omega
  have e2 : (16 * v1 + v2) % 16 = v2 := by omega
  rw [e1, e2, hd1, hd2]

theorem bytesToHex_hexPairs {s : JSStr} (h : ∀ c ∈ s, isLowerHexDigit c)
    (heven : s.length % 2 = 0) : bytesToHex (hexPairs s) = s := by
  induction s using hexPairs.induct with
  | case1 => rfl
  | case2 c => simp at heven
  | case3 c1 c2 t ih =>
    rw [hexPairs]
    unfold bytesToHex at *
    simp only [List.map_cons, List.flatten_cons]
    rw [byteToHexPair_parseIntPair (h c1 (by simp)) (h c2 (by simp))]
    have ht : ∀ c ∈ t, isLowerHexDigit c := by
      intro c hc
      exact h c (by simp [hc])
    have hte : t.length % 2 = 0 := by
      simp only [List.length_cons] at heven
      omega
    rw [ih ht hte]
    rfl

theorem hexToBytes_canon {s : JSStr} (h : IsCanonHex s) :
    hexToBytes s = some (hexPairs s) := by
  unfold hexToBytes
  rw [if_neg (by simp [h.1])]

theorem bytesToHex_hexToBytes {s : JSStr} (h : IsCanonHex s) :
    (hexToBytes s).map bytesToHex = some s := by
  rw [hexToBytes_canon h]
  simp [bytesToHex_hexPairs h.2 h.1]

/-! ## Lemmas: protobuf reader steps -/

theorem varintEncode_small {n : Nat} (h : n < 128) : varintEncode n = [n] := by
  rw [varintEncode]
  simp [h]

theorem ipLoop_nil (st : RawInvitePayload) : ipLoop [] st = some st := by
  rw [ipLoop]

theorem ipLoop_field1 (v rest : Bytes) (st : RawInvitePayload) :
    ipLoop (fieldBytes 1 v ++ rest) st = ipLoop rest { st with conversationToken := v } := by
  have hk : fieldBytes 1 v ++ rest = 10 :: (lenDelim v ++ rest) := by
    rw [fieldBytes, fieldKey]
    norm_num
    rw [varintEncode_small (by norm_num)]
    simp
  rw [hk, ipLoop]
  split
  · rename_i heq
    rw [varintDecode] at heq
    simp at heq
  · rename_i key r1 heq
    rw [varintDecode] at heq
    simp only [show ((10:Nat) < 128) = True by simp, if_true, Option.some.injEq,
      Prod.mk.injEq] at heq
    obtain ⟨rfl, rfl⟩ := heq
    norm_num
    split
    · rename_i heq2
      rw [readLen_lenDelim] at heq2
      exact absurd heq2 (by simp)
    · rename_i v2 r2 heq2
      rw [readLen_lenDelim] at heq2
      simp only [Option.some.injEq, Prod.mk.injEq] at heq2
      obtain ⟨rfl, rfl⟩ := heq2
      rfl

theorem ipLoop_field2 (v rest : Bytes) (st : RawInvitePayload) :
    ipLoop (fieldBytes 2 v ++ rest) st = ipLoop rest { st with creatorInboxId := v } := by
  have hk : fieldBytes 2 v ++ rest = 18 :: (lenDelim v ++ rest) := by
    rw [fieldBytes, fieldKey]
    norm_num
    rw [varintEncode_small (by norm_num)]
    simp
  rw [hk, ipLoop]
  split
  · rename_i heq
    rw [varintDecode] at heq
    simp at heq
  · rename_i key r1 heq
    rw [varintDecode] at heq
    simp only [show ((18:Nat) < 128) = True by simp, if_true, Option.some.injEq,
      Prod.mk.injEq] at heq
    obtain ⟨rfl, rfl⟩ := heq
    norm_num
    split
    · rename_i heq2
      rw [readLen_lenDelim] at heq2
      exact absurd heq2 (by simp)
    · rename_i v2 r2 heq2
      rw [readLen_lenDelim] at heq2
      simp only [Option.some.injEq, Prod.mk.injEq] at heq2
      obtain ⟨rfl, rfl⟩ := heq2
      rfl

theorem ipLoop_field3 (v rest : Bytes) (st : RawInvitePayload) :
    ipLoop (fieldBytes 3 v ++ rest) st = ipLoop rest { st with tag := v } := by
  have hk : fieldBytes 3 v ++ rest = 26 :: (lenDelim v ++ rest) := by
    rw [fieldBytes, fieldKey]
    norm_num
    rw [varintEncode_small (by norm_num)]
    simp
  rw [hk, ipLoop]
  split
  · rename_i heq
    rw [varintDecode] at heq
    simp at heq
  · rename_i key r1 heq
    rw [varintDecode] at heq
    simp only [show ((26:Nat) < 128) = True by simp, if_true, Option.some.injEq,
      Prod.mk.injEq] at heq
    obtain ⟨rfl, rfl⟩ := heq
    norm_num
    split
    · rename_i heq2
      rw [readLen_lenDelim] at heq2
      exact absurd heq2 (by simp)
    · rename_i v2 r2 heq2
      rw [readLen_lenDelim] at heq2
      simp only [Option.some.injEq, Prod.mk.injEq] at heq2
      obtain ⟨rfl, rfl⟩ := heq2
      rfl

theorem ipLoop_field4 (v rest : Bytes) (st : RawInvitePayload) :
    ipLoop (fieldBytes 4 v ++ rest) st = ipLoop rest { st with name := some v } := by
  have hk : fieldBytes 4 v ++ rest = 34 :: (lenDelim v ++ rest) := by
    rw [fieldBytes, fieldKey]
    norm_num
    rw [varintEncode_small (by norm_num)]
    simp
  rw [hk, ipLoop]
  split
  · rename_i heq
    rw [varintDecode] at heq
    simp at heq
  · rename_i key r1 heq
    rw [varintDecode] at heq
    simp only [show ((34:Nat) < 128) = True by simp, if_true, Option.some.injEq,
      Prod.mk.injEq] at heq
    obtain ⟨rfl, rfl⟩ := heq
    norm_num
    split
    · rename_i heq2
      rw [readLen_lenDelim] at heq2
      exact absurd heq2 (by simp)
    · rename_i v2 r2 heq2
      rw [readLen_lenDelim] at heq2
      simp only [Option.some.injEq, Prod.mk.injEq] at heq2
      obtain ⟨rfl, rfl⟩ := heq2
      rfl

theorem ipLoop_field5 (v rest : Bytes) (st : RawInvitePayload) :
    ipLoop (fieldBytes 5 v ++ rest) st = ipLoop rest { st with description := some v } := by
  have hk : fieldBytes 5 v ++ rest = 42 :: (lenDelim v ++ rest) := by
    rw [fieldBytes, fieldKey]
    norm_num
    rw [varintEncode_small (by norm_num)]
    simp
  rw [hk, ipLoop]
  split
  · rename_i heq
    rw [varintDecode] at heq
    simp at heq
  · rename_i key r1 heq
    rw [varintDecode] at heq
    simp only [show ((42:Nat) < 128) = True by simp, if_true, Option.some.injEq,
      Prod.mk.injEq] at heq
    obtain ⟨rfl, rfl⟩ := heq
    norm_num
    split
    · rename_i heq2
      rw [readLen_lenDelim] at heq2
      exact absurd heq2 (by simp)
    · rename_i v2 r2 heq2
      rw [readLen_lenDelim] at heq2
      simp only [Option.some.injEq, Prod.mk.injEq] at heq2
      obtain ⟨rfl, rfl⟩ := heq2
      rfl

theorem ipLoop_field6 (v rest : Bytes) (st : RawInvitePayload) :
    ipLoop (fieldBytes 6 v ++ rest) st = ipLoop rest { st with imageURL := some v } := by
  have hk : fieldBytes 6 v ++ rest = 50 :: (lenDelim v ++ rest) := by
    rw [fieldBytes, fieldKey]
    norm_num
    rw [varintEncode_small (by norm_num)]
    simp
  rw [hk, ipLoop]
  split
  · rename_i heq
    rw [varintDecode] at heq
    simp at heq
  · rename_i key r1 heq
    rw [varintDecode] at heq
    simp only [show ((50:Nat) < 128) = True by simp, if_true, Option.some.injEq,
      Prod.mk.injEq] at heq
    obtain ⟨rfl, rfl⟩ := heq
    norm_num
    split
    · rename_i heq2
      rw [readLen_lenDelim] at heq2
      exact absurd heq2 (by simp)
    · rename_i v2 r2 heq2
      rw [readLen_lenDelim] at heq2
      simp only [Option.some.injEq, Prod.mk.injEq] at heq2
      obtain ⟨rfl, rfl⟩ := heq2
      rfl

theorem ipLoop_field7 {n : Nat} (hn : n < 2 ^ 64) (rest : Bytes) (st : RawInvitePayload) :
    ipLoop (fieldFixed64 7 n ++ rest) st = ipLoop rest { st with conversationExpiresAtUnix := some (toInt64 n) } := by
  have hk : fieldFixed64 7 n ++ rest = 57 :: (fixed64Encode n ++ rest) := by
    rw [fieldFixed64, fieldKey]
    norm_num
    rw [varintEncode_small (by norm_num)]
    simp
  rw [hk, ipLoop]
  split
  · rename_i heq
    rw [varintDecode] at heq
    simp at heq
  · rename_i key r1 heq
    rw [varintDecode] at heq
    simp only [show ((57:Nat) < 128) = True by simp, if_true, Option.some.injEq,
      Prod.mk.injEq] at heq
    obtain ⟨rfl, rfl⟩ := heq
    norm_num
    split
    · rename_i heq2
      rw [readFixed64_encode hn] at heq2
      exact absurd heq2 (by simp)
    · rename_i n2 r2 heq2
      rw [readFixed64_encode hn] at heq2
      simp only [Option.some.injEq, Prod.mk.injEq] at heq2
      obtain ⟨rfl, rfl⟩ := heq2
      rfl

theorem ipLoop_field8 {n : Nat} (hn : n < 2 ^ 64) (rest : Bytes) (st : RawInvitePayload) :
    ipLoop (fieldFixed64 8 n ++ rest) st = ipLoop rest { st with expiresAtUnix := some (toInt64 n) } := by
  have hk : fieldFixed64 8 n ++ rest = 65 :: (fixed64Encode n ++ rest) := by
    rw [fieldFixed64, fieldKey]
    norm_num
    rw [varintEncode_small (by norm_num)]
    simp
  rw [hk, ipLoop]
  split
  · rename_i heq
    rw [varintDecode] at heq
    simp at heq
  · rename_i key r1 heq
    rw [varintDecode] at heq
    simp only [show ((65:Nat) < 128) = True by simp, if_true, Option.some.injEq,
      Prod.mk.injEq] at heq
    obtain ⟨rfl, rfl⟩ := heq
    norm_num
    split
    · rename_i heq2
      rw [readFixed64_encode hn] at heq2
      exact absurd heq2 (by simp)
    · rename_i n2 r2 heq2
      rw [readFixed64_encode hn] at heq2
      simp only [Option.some.injEq, Prod.mk.injEq] at heq2
      obtain ⟨rfl, rfl⟩ := heq2
      rfl

theorem ipLoop_field9 (n : Nat) (rest : Bytes) (st : RawInvitePayload) :
    ipLoop (fieldVarint 9 n ++ rest) st = ipLoop rest { st with expiresAfterUse := n ≠ 0 } := by
  have hk : fieldVarint 9 n ++ rest = 72 :: (varintEncode n ++ rest) := by
    rw [fieldVarint, fieldKey]
    norm_num
    rw [varintEncode_small (by norm_num)]
    simp
  rw [hk, ipLoop]
  split
  · rename_i heq
    rw [varintDecode] at heq
    simp at heq
  · rename_i key r1 heq
    rw [varintDecode] at heq
    simp only [show ((72:Nat) < 128) = True by simp, if_true, Option.some.injEq,
      Prod.mk.injEq] at heq
    obtain ⟨rfl, rfl⟩ := heq
    norm_num
    split
    · rename_i heq2
      rw [varintDecode_encode] at heq2
      exact absurd heq2 (by simp)
    · rename_i n2 r2 heq2
      rw [varintDecode_encode] at heq2
      simp only [Option.some.injEq, Prod.mk.injEq] at heq2
      obtain ⟨rfl, rfl⟩ := heq2
      rfl

theorem siLoop_nil (st : SignedInvite) : siLoop [] st = some st := by
  rw [siLoop]

theorem siLoop_field1 (v rest : Bytes) (st : SignedInvite) :
    siLoop (fieldBytes 1 v ++ rest) st = siLoop rest { st with payload := v } := by
  have hk : fieldBytes 1 v ++ rest = 10 :: (lenDelim v ++ rest) := by
    rw [fieldBytes, fieldKey]
    norm_num
    rw [varintEncode_small (by norm_num)]
    simp
  rw [hk, siLoop]
  split
  · rename_i heq
    rw [varintDecode] at heq
    simp at heq
  · rename_i key r1 heq
    rw [varintDecode] at heq
    simp only [show ((10:Nat) < 128) = True by simp, if_true, Option.some.injEq,
      Prod.mk.injEq] at heq
    obtain ⟨rfl, rfl⟩ := heq
    norm_num
    split
    · rename_i heq2
      rw [readLen_lenDelim] at heq2
      exact absurd heq2 (by simp)
    · rename_i v2 r2 heq2
      rw [readLen_lenDelim] at heq2
      simp only [Option.some.injEq, Prod.mk.injEq] at heq2
      obtain ⟨rfl, rfl⟩ := heq2
      rfl

theorem siLoop_field2 (v rest : Bytes) (st : SignedInvite) :
    siLoop (fieldBytes 2 v ++ rest) st = siLoop rest { st with signature := v } := by
  have hk : fieldBytes 2 v ++ rest = 18 :: (lenDelim v ++ rest) := by
    rw [fieldBytes, fieldKey]
    norm_num
    rw [varintEncode_small (by norm_num)]
    simp
  rw [hk, siLoop]
  split
  · rename_i heq
    rw [varintDecode] at heq
    simp at heq
  · rename_i key r1 heq
    rw [varintDecode] at heq
    simp only [show ((18:Nat) < 128) = True by simp, if_true, Option.some.injEq,
      Prod.mk.injEq] at heq
    obtain ⟨rfl, rfl⟩ := heq
    norm_num
    split
    · rename_i heq2
      rw [readLen_lenDelim] at heq2
      exact absurd heq2 (by simp)
    · rename_i v2 r2 heq2
      rw [readLen_lenDelim] at heq2
      simp only [Option.some.injEq, Prod.mk.injEq] at heq2
      obtain ⟨rfl, rfl⟩ := heq2
      rfl

theorem profileLoop_nil (st : ConversationProfile) : profileLoop [] st = some st := by
  rw [profileLoop]

theorem profileLoop_field1 (v rest : Bytes) (st : ConversationProfile) :
    profileLoop (fieldBytes 1 v ++ rest) st = profileLoop rest { st with inboxId := v } := by
  have hk : fieldBytes 1 v ++ rest = 10 :: (lenDelim v ++ rest) := by
    rw [fieldBytes, fieldKey]
    norm_num
    rw [varintEncode_small (by norm_num)]
    simp
  rw [hk, profileLoop]
  split
  · rename_i heq
    rw [varintDecode] at heq
    simp at heq
  · rename_i key r1 heq
    rw [varintDecode] at heq
    simp only [show ((10:Nat) < 128) = True by simp, if_true, Option.some.injEq,
      Prod.mk.injEq] at heq
    obtain ⟨rfl, rfl⟩ := heq
    norm_num
    split
    · rename_i heq2
      rw [readLen_lenDelim] at heq2
      exact absurd heq2 (by simp)
    · rename_i v2 r2 heq2
      rw [readLen_lenDelim] at heq2
      simp only [Option.some.injEq, Prod.mk.injEq] at heq2
      obtain ⟨rfl, rfl⟩ := heq2
      rfl

theorem profileLoop_field2 (v rest : Bytes) (st : ConversationProfile) :
    profileLoop (fieldBytes 2 v ++ rest) st = profileLoop rest { st with name := some v } := by
  have hk : fieldBytes 2 v ++ rest = 18 :: (lenDelim v ++ rest) := by
    rw [fieldBytes, fieldKey]
    norm_num
    rw [varintEncode_small (by norm_num)]
    simp
  rw [hk, profileLoop]
  split
  · rename_i heq
    rw [varintDecode] at heq
    simp at heq
  · rename_i key r1 heq
    rw [varintDecode] at heq
    simp only [show ((18:Nat) < 128) = True by simp, if_true, Option.some.injEq,
      Prod.mk.injEq] at heq
    obtain ⟨rfl, rfl⟩ := heq
    norm_num
    split
    · rename_i heq2
      rw [readLen_lenDelim] at heq2
      exact absurd heq2 (by simp)
    · rename_i v2 r2 heq2
      rw [readLen_lenDelim] at heq2
      simp only [Option.some.injEq, Prod.mk.injEq] at heq2
      obtain ⟨rfl, rfl⟩ := heq2
      rfl

theorem profileLoop_field3 (v rest : Bytes) (st : ConversationProfile) :
    profileLoop (fieldBytes 3 v ++ rest) st = profileLoop rest { st with image := some v } := by
  have hk : fieldBytes 3 v ++ rest = 26 :: (lenDelim v ++ rest) := by
    rw [fieldBytes, fieldKey]
    norm_num
    rw [varintEncode_small (by norm_num)]
    simp
  rw [hk, profileLoop]
  split
  · rename_i heq
    rw [varintDecode] at heq
    simp at heq
  · rename_i key r1 heq
    rw [varintDecode] at heq
    simp only [show ((26:Nat) < 128) = True by simp, if_true, Option.some.injEq,
      Prod.mk.injEq] at heq
    obtain ⟨rfl, rfl⟩ := heq
    norm_num
    split
    · rename_i heq2
      rw [readLen_lenDelim] at heq2
      exact absurd heq2 (by simp)
    · rename_i v2 r2 heq2
      rw [readLen_lenDelim] at heq2
      simp only [Option.some.injEq, Prod.mk.injEq] at heq2
      obtain ⟨rfl, rfl⟩ := heq2
      rfl

theorem metaLoop_nil (st : ConversationCustomMetadata) : metaLoop [] st = some st := by
  rw [metaLoop]

theorem metaLoop_field1 (v rest : Bytes) (st : ConversationCustomMetadata) :
    metaLoop (fieldBytes 1 v ++ rest) st = metaLoop rest { st with tag := v } := by
  have hk : fieldBytes 1 v ++ rest = 10 :: (lenDelim v ++ rest) := by
    rw [fieldBytes, fieldKey]
    norm_num
    rw [varintEncode_small (by norm_num)]
    simp
  rw [hk, metaLoop]
  split
  · rename_i heq
    rw [varintDecode] at heq
    simp at heq
  · rename_i key r1 heq
    rw [varintDecode] at heq
    simp only [show ((10:Nat) < 128) = True by simp, if_true, Option.some.injEq,
      Prod.mk.injEq] at heq
    obtain ⟨rfl, rfl⟩ := heq
    norm_num
    split
    · rename_i heq2
      rw [readLen_lenDelim] at heq2
      exact absurd heq2 (by simp)
    · rename_i v2 r2 heq2
      rw [readLen_lenDelim] at heq2
      simp only [Option.some.injEq, Prod.mk.injEq] at heq2
      obtain ⟨rfl, rfl⟩ := heq2
      rfl

theorem metaLoop_field3 {n : Nat} (hn : n < 2 ^ 64) (rest : Bytes) (st : ConversationCustomMetadata) :
    metaLoop (fieldFixed64 3 n ++ rest) st = metaLoop rest { st with expiresAtUnix := some (toInt64 n) } := by
  have hk : fieldFixed64 3 n ++ rest = 25 :: (fixed64Encode n ++ rest) := by
    rw [fieldFixed64, fieldKey]
    norm_num
    rw [varintEncode_small (by norm_num)]
    simp
  rw [hk, metaLoop]
  split
  · rename_i heq
    rw [varintDecode] at heq
    simp at heq
  · rename_i key r1 heq
    rw [varintDecode] at heq
    simp only [show ((25:Nat) < 128) = True by simp, if_true, Option.some.injEq,
      Prod.mk.injEq] at heq
    obtain ⟨rfl, rfl⟩ := heq
    norm_num
    split
    · rename_i heq2
      rw [readFixed64_encode hn] at heq2
      exact absurd heq2 (by simp)
    · rename_i n2 r2 heq2
      rw [readFixed64_encode hn] at heq2
      simp only [Option.some.injEq, Prod.mk.injEq] at heq2
      obtain ⟨rfl, rfl⟩ := heq2
      rfl

theorem metaLoop_field4 (v rest : Bytes) (st : ConversationCustomMetadata) :
    metaLoop (fieldBytes 4 v ++ rest) st = metaLoop rest { st with imageEncryptionKey := some v } := by
  have hk : fieldBytes 4 v ++ rest = 34 :: (lenDelim v ++ rest) := by
    rw [fieldBytes, fieldKey]
    norm_num
    rw [varintEncode_small (by norm_num)]
    simp
  rw [hk, metaLoop]
  split
  · rename_i heq
    rw [varintDecode] at heq
    simp at heq
  · rename_i key r1 heq
    rw [varintDecode] at heq
    simp only [show ((34:Nat) < 128) = True by simp, if_true, Option.some.injEq,
      Prod.mk.injEq] at heq
    obtain ⟨rfl, rfl⟩ := heq
    norm_num
    split
    · rename_i heq2
      rw [readLen_lenDelim] at heq2
      exact absurd heq2 (by simp)
    · rename_i v2 r2 heq2
      rw [readLen_lenDelim] at heq2
      simp only [Option.some.injEq, Prod.mk.injEq] at heq2
      obtain ⟨rfl, rfl⟩ := heq2
      rfl

theorem metaLoop_field2 {pv : Bytes} {p : ConversationProfile}
    (hp : profileLoop pv {} = some p) (rest : Bytes) (st : ConversationCustomMetadata) :
    metaLoop (fieldBytes 2 pv ++ rest) st =
      metaLoop rest { st with profiles := st.profiles ++ [p] } := by
  have hk : fieldBytes 2 pv ++ rest = 18 :: (lenDelim pv ++ rest) := by
    rw [fieldBytes, fieldKey]
    norm_num
    rw [varintEncode_small (by norm_num)]
    simp
  rw [hk, metaLoop]
  split
  · rename_i heq
    rw [varintDecode] at heq
    simp at heq
  · rename_i key r1 heq
    rw [varintDecode] at heq
    simp only [show ((18:Nat) < 128) = True by simp, if_true, Option.some.injEq,
      Prod.mk.injEq] at heq
    obtain ⟨rfl, rfl⟩ := heq
    norm_num
    split
    · rename_i heq2
      rw [readLen_lenDelim] at heq2
      exact absurd heq2 (by simp)
    · rename_i v2 r2 heq2
      rw [readLen_lenDelim] at heq2
      simp only [Option.some.injEq, Prod.mk.injEq] at heq2
      obtain ⟨rfl, rfl⟩ := heq2
      rw [hp]

/-! ## Lemmas: protobuf encode/decode round-trips -/

theorem siDecode_encode (si : SignedInvite) :
    decodeSignedInvite (encodeSignedInvite si) = some si := by
  unfold decodeSignedInvite encodeSignedInvite
  rw [show fieldBytes 1 si.payload ++ fieldBytes 2 si.signature =
    fieldBytes 1 si.payload ++ (fieldBytes 2 si.signature ++ []) by simp]
  rw [siLoop_field1, siLoop_field2, siLoop_nil]

theorem ipLoop_optName (o : Option JSStr) (rest : Bytes) (st : RawInvitePayload) :
    ipLoop ((match o with | some s => fieldBytes 4 s | none => []) ++ rest) st =
      ipLoop rest { st with name := match o with | some s => some s | none => st.name } := by
  cases o with
  | none => simp
  | some s => simp [ipLoop_field4]

theorem ipLoop_optDesc (o : Option JSStr) (rest : Bytes) (st : RawInvitePayload) :
    ipLoop ((match o with | some s => fieldBytes 5 s | none => []) ++ rest) st =
      ipLoop rest
        { st with description := match o with | some s => some s | none => st.description } := by
  cases o with
  | none => simp
  | some s => simp [ipLoop_field5]

theorem ipLoop_optImg (o : Option JSStr) (rest : Bytes) (st : RawInvitePayload) :
    ipLoop ((match o with | some s => fieldBytes 6 s | none => []) ++ rest) st =
      ipLoop rest
        { st with imageURL := match o with | some s => some s | none => st.imageURL } := by
  cases o with
  | none => simp
  | some s => simp [ipLoop_field6]

theorem ipLoop_optConvExp (o : Option Int) (rest : Bytes) (st : RawInvitePayload) :
    ipLoop ((match o with
      | some v => if v = 0 then [] else fieldFixed64 7 (toUInt64 v)
      | none => []) ++ rest) st =
      ipLoop rest
        { st with conversationExpiresAtUnix := match o with
            | some v => if v = 0 then st.conversationExpiresAtUnix
                else some (toInt64 (toUInt64 v))
            | none => st.conversationExpiresAtUnix } := by
  cases o with
  | none => simp
  | some v =>
    by_cases h0 : v = 0
    · simp [h0]
    · simp [h0, ipLoop_field7 (toUInt64_lt v)]

theorem ipLoop_optExp (o : Option Int) (rest : Bytes) (st : RawInvitePayload) :
    ipLoop ((match o with
      | some v => if v = 0 then [] else fieldFixed64 8 (toUInt64 v)
      | none => []) ++ rest) st =
      ipLoop rest
        { st with expiresAtUnix := match o with
            | some v => if v = 0 then st.expiresAtUnix
                else some (toInt64 (toUInt64 v))
            | none => st.expiresAtUnix } := by
  cases o with
  | none => simp
  | some v =>
    by_cases h0 : v = 0
    · simp [h0]
    · simp [h0, ipLoop_field8 (toUInt64_lt v)]

/-- The wire-level normalisation a timestamp undergoes on a mint/parse
round-trip: dropped when zero (encoder truthiness), masked to a signed
64-bit value (`Long.fromBigInt`). -/
def normTs : Option Int → Option Int
  | some v => if v = 0 then none else some (toInt64 (toUInt64 v))
  | none => none

/-- The raw message recovered from `encodeInvitePayload p`. -/
def rawOfPayload (p : InvitePayload) : RawInvitePayload where
  conversationToken := p.conversationToken
  creatorInboxId := p.creatorInboxId
  tag := p.tag
  name := p.name
  description := p.description
  imageURL := p.imageURL
  conversationExpiresAtUnix := normTs p.conversationExpiresAtUnix
  expiresAtUnix := normTs p.expiresAtUnix
  expiresAfterUse := p.expiresAfterUse

set_option maxHeartbeats 2000000 in
theorem pbDecode_encodeInvitePayload (p : InvitePayload) :
    pbDecodeInvitePayload (encodeInvitePayload p) = some (rawOfPayload p) := by
  obtain ⟨token, inbox, tag, name, desc, img, cexp, exp, eau⟩ := p
  unfold pbDecodeInvitePayload encodeInvitePayload
  simp only [List.append_assoc]
  rw [ipLoop_field1, ipLoop_field2, ipLoop_field3, ipLoop_optName, ipLoop_optDesc,
    ipLoop_optImg, ipLoop_optConvExp, ipLoop_optExp]
  dsimp only
  rw [show (fieldVarint 9 (if eau then 1 else 0) : Bytes) =
    fieldVarint 9 (if eau then 1 else 0) ++ [] by simp]
  rw [ipLoop_field9, ipLoop_nil]
  dsimp only
  unfold rawOfPayload normTs
  cases name <;> cases desc <;> cases img <;> cases eau <;> cases cexp <;> cases exp <;> rfl

theorem decode_encodeInvitePayload (p : InvitePayload) :
    decodeInvitePayload (encodeInvitePayload p) =
      some (fromRawInvitePayload (rawOfPayload p)) := by
  unfold decodeInvitePayload
  rw [pbDecode_encodeInvitePayload]
  rfl

theorem profileLoop_optName (o : Option JSStr) (rest : Bytes) (st : ConversationProfile) :
    profileLoop ((match o with | some s => fieldBytes 2 s | none => []) ++ rest) st =
      profileLoop rest
        { st with name := match o with | some s => some s | none => st.name } := by
  cases o with
  | none => simp
  | some s => simp [profileLoop_field2]

theorem profileLoop_optImage (o : Option JSStr) (rest : Bytes) (st : ConversationProfile) :
    profileLoop ((match o with | some s => fieldBytes 3 s | none => []) ++ rest) st =
      profileLoop rest
        { st with image := match o with | some s => some s | none => st.image } := by
  cases o with
  | none => simp
  | some s => simp [profileLoop_field3]

theorem profileDecode_encode (p : ConversationProfile) :
    profileLoop (encodeConversationProfile p) {} = some p := by
  obtain ⟨inbox, name, image⟩ := p
  unfold encodeConversationProfile
  simp only [List.append_assoc]
  rw [profileLoop_field1, profileLoop_optName]
  rw [show (match image with | some s => fieldBytes 3 s | none => ([] : Bytes)) =
    (match image with | some s => fieldBytes 3 s | none => ([] : Bytes)) ++ [] by simp]
  rw [profileLoop_optImage, profileLoop_nil]
  cases name <;> cases image <;> rfl

theorem metaLoop_profiles (ps : List ConversationProfile) (rest : Bytes)
    (st : ConversationCustomMetadata) :
    metaLoop ((ps.map (fun p => fieldBytes 2 (encodeConversationProfile p))).flatten
        ++ rest) st =
      metaLoop rest { st with profiles := st.profiles ++ ps } := by
  induction ps generalizing st with
  | nil => simp
  | cons p t ih =>
    simp only [List.map_cons, List.flatten_cons, List.append_assoc]
    rw [metaLoop_field2 (profileDecode_encode p), ih]
    simp

theorem metaLoop_optExp (o : Option Int) (rest : Bytes) (st : ConversationCustomMetadata) :
    metaLoop ((match o with
      | some v => if v = 0 then [] else fieldFixed64 3 (toUInt64 v)
      | none => []) ++ rest) st =
      metaLoop rest
        { st with expiresAtUnix := match o with
            | some v => if v = 0 then st.expiresAtUnix
                else some (toInt64 (toUInt64 v))
            | none => st.expiresAtUnix } := by
  cases o with
  | none => simp
  | some v =>
    by_cases h0 : v = 0
    · simp [h0]
    · simp [h0, metaLoop_field3 (toUInt64_lt v)]

theorem metaLoop_optKey (o : Option Bytes) (rest : Bytes) (st : ConversationCustomMetadata) :
    metaLoop ((match o with | some k => fieldBytes 4 k | none => []) ++ rest) st =
      metaLoop rest
        { st with imageEncryptionKey := match o with
            | some k => some k
            | none => st.imageEncryptionKey } := by
  cases o with
  | none => simp
  | some k => simp [metaLoop_field4]

/-- The raw message recovered from `encodeConversationMetadata m`. -/
def rawOfMeta (m : ConversationCustomMetadata) : ConversationCustomMetadata where
  tag := m.tag
  profiles := m.profiles
  expiresAtUnix := normTs m.expiresAtUnix
  imageEncryptionKey := m.imageEncryptionKey

theorem metaDecode_encode (m : ConversationCustomMetadata) :
    decodeConversationMetadata (encodeConversationMetadata m) = some (rawOfMeta m) := by
  obtain ⟨tag, profiles, exp, key⟩ := m
  unfold decodeConversationMetadata encodeConversationMetadata
  simp only [List.append_assoc]
  rw [metaLoop_field1, metaLoop_profiles]
  rw [show (match key with | some k => fieldBytes 4 k | none => ([] : Bytes)) =
    (match key with | some k => fieldBytes 4 k | none => ([] : Bytes)) ++ [] by simp]
  rw [metaLoop_optExp, metaLoop_optKey, metaLoop_nil]
  unfold rawOfMeta normTs
  cases exp <;> cases key <;> rfl

/-! ## Lemmas: byte-validity, first byte and size of the encoders -/

theorem ValidBytes.append {a b : Bytes} (ha : ValidBytes a) (hb : ValidBytes b) :
    ValidBytes (a ++ b) := by
  intro x hx
  rcases List.mem_append.mp hx with h | h
  · exact ha x h
  · exact hb x h

theorem ValidBytes.nil : ValidBytes [] := by
  intro x hx
  simp at hx

theorem varintEncode_bytes (n : Nat) : ValidBytes (varintEncode n) := by
  induction n using Nat.strong_induction_on with
  | _ n ih =>
    by_cases h : n < 128
    · rw [varintEncode_small h]
      intro x hx
      simp at hx
      omega
    · rw [varintEncode]
      simp only [h, dite_false]
      intro x hx
      rcases List.mem_cons.mp hx with rfl | hx
      · omega
      · exact ih (n / 128) (by omega) x hx

theorem lenDelim_bytes {b : Bytes} (hb : ValidBytes b) : ValidBytes (lenDelim b) :=
  ValidBytes.append (varintEncode_bytes _) hb

theorem fieldBytes_bytes {fno : Nat} {b : Bytes} (hb : ValidBytes b) :
    ValidBytes (fieldBytes fno b) :=
  ValidBytes.append (varintEncode_bytes _) (lenDelim_bytes hb)

theorem fixed64Encode_bytes (n : Nat) : ValidBytes (fixed64Encode n) := by
  intro x hx
  unfold fixed64Encode at hx
  simp at hx
  omega

theorem fieldFixed64_bytes (fno n : Nat) : ValidBytes (fieldFixed64 fno n) :=
  ValidBytes.append (varintEncode_bytes _) (fixed64Encode_bytes _)

theorem fieldVarint_bytes (fno n : Nat) : ValidBytes (fieldVarint fno n) :=
  ValidBytes.append (varintEncode_bytes _) (varintEncode_bytes _)

/-- Byte-validity of an optional display field. -/
def ValidOptStr (o : Option JSStr) : Prop := ∀ s, o = some s → ValidBytes s

instance (o : Option JSStr) : Decidable (ValidOptStr o) := by
  unfold ValidOptStr
  cases o with
  | none => exact isTrue (by intro s h; cases h)
  | some s =>
    by_cases h : ValidBytes s
    · exact isTrue (by intro x hx; cases hx; exact h)
    · exact isFalse (by intro hc; exact h (hc s rfl))

theorem encodeInvitePayload_bytes {p : InvitePayload}
    (h1 : ValidBytes p.conversationToken) (h2 : ValidBytes p.creatorInboxId)
    (h3 : ValidBytes p.tag) (h4 : ValidOptStr p.name) (h5 : ValidOptStr p.description)
    (h6 : ValidOptStr p.imageURL) : ValidBytes (encodeInvitePayload p) := by
  unfold encodeInvitePayload
  refine ValidBytes.append (ValidBytes.append (ValidBytes.append (ValidBytes.append
    (ValidBytes.append (ValidBytes.append (ValidBytes.append (ValidBytes.append
      (fieldBytes_bytes h1) (fieldBytes_bytes h2)) (fieldBytes_bytes h3)) ?_) ?_) ?_)
        ?_) ?_) (fieldVarint_bytes _ _)
  · cases hn : p.name with
    | none => exact ValidBytes.nil
    | some s => exact fieldBytes_bytes (h4 s hn)
  · cases hn : p.description with
    | none => exact ValidBytes.nil
    | some s => exact fieldBytes_bytes (h5 s hn)
  · cases hn : p.imageURL with
    | none => exact ValidBytes.nil
    | some s => exact fieldBytes_bytes (h6 s hn)
  · cases p.conversationExpiresAtUnix with
    | none => exact ValidBytes.nil
    | some v =>
      by_cases h0 : v = 0
      · simp only [h0, if_true]
        exact ValidBytes.nil
      · simp only [h0, if_false]
        exact fieldFixed64_bytes _ _
  · cases p.expiresAtUnix with
    | none => exact ValidBytes.nil
    | some v =>
      by_cases h0 : v = 0
      · simp only [h0, if_true]
        exact ValidBytes.nil
      · simp only [h0, if_false]
        exact fieldFixed64_bytes _ _

theorem encodeSignedInvite_bytes {si : SignedInvite} (h1 : ValidBytes si.payload)
    (h2 : ValidBytes si.signature) : ValidBytes (encodeSignedInvite si) :=
  ValidBytes.append (fieldBytes_bytes h1) (fieldBytes_bytes h2)

theorem encodeConversationProfile_bytes {p : ConversationProfile}
    (h1 : ValidBytes p.inboxId) (h2 : ValidOptStr p.name) (h3 : ValidOptStr p.image) :
    ValidBytes (encodeConversationProfile p) := by
  unfold encodeConversationProfile
  refine ValidBytes.append (ValidBytes.append (fieldBytes_bytes h1) ?_) ?_
  · cases hn : p.name with
    | none => exact ValidBytes.nil
    | some s => exact fieldBytes_bytes (h2 s hn)
  · cases hn : p.image with
    | none => exact ValidBytes.nil
    | some s => exact fieldBytes_bytes (h3 s hn)

theorem encodeConversationMetadata_bytes {m : ConversationCustomMetadata}
    (h1 : ValidBytes m.tag)
    (h2 : ∀ p ∈ m.profiles, ValidBytes p.inboxId ∧ ValidOptStr p.name ∧ ValidOptStr p.image)
    (h3 : ∀ k, m.imageEncryptionKey = some k → ValidBytes k) :
    ValidBytes (encodeConversationMetadata m) := by
  unfold encodeConversationMetadata
  refine ValidBytes.append (ValidBytes.append (ValidBytes.append
    (fieldBytes_bytes h1) ?_) ?_) ?_
  · intro x hx
    rw [List.mem_flatten] at hx
    obtain ⟨l, hl, hxl⟩ := hx
    rw [List.mem_map] at hl
    obtain ⟨p, hp, rfl⟩ := hl
    obtain ⟨hp1, hp2, hp3⟩ := h2 p hp
    exact fieldBytes_bytes (encodeConversationProfile_bytes hp1 hp2 hp3) x hxl
  · cases m.expiresAtUnix with
    | none => exact ValidBytes.nil
    | some v =>
      by_cases h0 : v = 0
      · simp only [h0, if_true]
        exact ValidBytes.nil
      · simp only [h0, if_false]
        exact fieldFixed64_bytes _ _
  · cases hk : m.imageEncryptionKey with
    | none => exact ValidBytes.nil
    | some k => exact fieldBytes_bytes (h3 k hk)

theorem fieldBytes_cons {fno : Nat} (h : fno * 8 + 2 < 128) (b : Bytes) :
    fieldBytes fno b = (fno * 8 + 2) :: lenDelim b := by
  unfold fieldBytes fieldKey
  rw [varintEncode_small h]
  rfl

theorem encodeSignedInvite_headD (si : SignedInvite) :
    (encodeSignedInvite si).headD 0 = 10 := by
  unfold encodeSignedInvite
  rw [fieldBytes_cons (by norm_num)]
  rfl

theorem encodeConversationMetadata_headD (m : ConversationCustomMetadata) :
    (encodeConversationMetadata m).headD 0 = 10 := by
  unfold encodeConversationMetadata
  rw [fieldBytes_cons (by norm_num)]
  rfl

/-! ## Lemmas: UUID round-trip -/

theorem isHexDigitB_ne_45 {c : Nat} (h : isHexDigitB c = true) : c ≠ 45 := by
  unfold isHexDigitB at h
  simp only [decide_eq_true_eq] at h
  omega

theorem hexVal_digit {c : Nat} (h : isHexDigitB c = true) :
    ∃ v, hexVal c = some v ∧ v < 16 ∧ hexDigit v = lowerChar c := by
  unfold isHexDigitB at h
  simp only [decide_eq_true_eq] at h
  rcases h with h | h | h
  · refine ⟨c - 48, ?_, by omega, ?_⟩
    · unfold hexVal
      rw [if_pos h]
    · unfold hexDigit lowerChar
      rw [if_pos (by omega), if_neg (by omega)]
      omega
  · refine ⟨c - 87, ?_, by omega, ?_⟩
    · unfold hexVal
      rw [if_neg (by omega), if_pos h]
    · unfold hexDigit lowerChar
      rw [if_neg (by omega), if_neg (by omega)]
      omega
  · refine ⟨c - 55, ?_, by omega, ?_⟩
    · unfold hexVal
      rw [if_neg (by omega), if_neg (by omega), if_pos h]
    · unfold hexDigit lowerChar
      rw [if_neg (by omega), if_pos (by omega)]
      omega

theorem byteToHexPair_parseIntPair_mixed {c1 c2 : Nat}
    (h1 : isHexDigitB c1 = true) (h2 : isHexDigitB c2 = true) :
    byteToHexPair (parseIntPair c1 c2) = [lowerChar c1, lowerChar c2] := by
  obtain ⟨v1, hv1, hlt1, hd1⟩ := hexVal_digit h1
  obtain ⟨v2, hv2, hlt2, hd2⟩ := hexVal_digit h2
  unfold parseIntPair
  rw [hv1, hv2]
  unfold byteToHexPair
  have e1 : (16 * v1 + v2) / 16 % 16 = v1 := by omega
  have e2 : (16 * v1 + v2) % 16 = v2 := by omega
  rw [e1, e2, hd1, hd2]

theorem pairs_lower {k : Nat} :
    ∀ hex : JSStr, hex.length = 2 * k → (∀ c ∈ hex, isHexDigitB c = true) →
      bytesToHex ((List.range k).map
        (fun i => parseIntPair (hex.getD (2 * i) 0) (hex.getD (2 * i + 1) 0))) =
      lowerStr hex := by
  induction k with
  | zero =>
    intro hex hlen hhex
    have : hex = [] := List.eq_nil_of_length_eq_zero (by omega)
    subst this
    rfl
  | succ k ih =>
    intro hex hlen hhex
    match hex with
    | [] => simp at hlen
    | [c] => simp at hlen; omega
    | c1 :: c2 :: t =>
      rw [List.range_succ_eq_map]
      simp only [List.map_cons, List.map_map]
      have hmap : (List.range k).map
          ((fun i => parseIntPair ((c1 :: c2 :: t).getD (2 * i) 0)
            ((c1 :: c2 :: t).getD (2 * i + 1) 0)) ∘ Nat.succ) =
          (List.range k).map (fun i => parseIntPair (t.getD (2 * i) 0) (t.getD (2 * i + 1) 0)) := by
        apply List.map_congr_left
        intro i _
        simp only [Function.comp_apply]
        have e1 : 2 * Nat.succ i = 2 * i + 1 + 1 := by omega
        rw [e1]
        simp [List.getD_cons_succ]
      rw [hmap]
      unfold bytesToHex
      simp only [List.map_cons, List.flatten_cons, Nat.mul_zero, Nat.zero_add,
        List.getD_cons_zero, List.getD_cons_succ]
      rw [byteToHexPair_parseIntPair_mixed (hhex c1 (by simp)) (hhex c2 (by simp))]
      have ht := ih t (by simp at hlen; omega)
        (fun c hc => hhex c (by simp [hc]))
      unfold bytesToHex at ht
      rw [ht]
      rfl

theorem all_hex_ne_45 {g : JSStr} (h : g.all isHexDigitB = true) : (45 : Nat) ∉ g := by
  intro hmem
  rw [List.all_eq_true] at h
  exact isHexDigitB_ne_45 (h 45 hmem) rfl

theorem filter_ne_45_eq_self {g : JSStr} (h : (45 : Nat) ∉ g) :
    g.filter (fun c => c ≠ 45) = g := by
  apply List.filter_eq_self.mpr
  intro a ha
  simp only [decide_eq_true_eq]
  intro heq
  exact h (heq ▸ ha)

/-- Structure of a UUID string: five hex groups joined by hyphens. -/
theorem isUuidStr_decomp {s : JSStr} (h : isUuidStr s = true) :
    ∃ g1 g2 g3 g4 g5 : JSStr,
      s = g1 ++ 45 :: (g2 ++ 45 :: (g3 ++ 45 :: (g4 ++ 45 :: g5))) ∧
      g1.length = 8 ∧ g2.length = 4 ∧ g3.length = 4 ∧ g4.length = 4 ∧ g5.length = 12 ∧
      g1.all isHexDigitB = true ∧ g2.all isHexDigitB = true ∧ g3.all isHexDigitB = true ∧
      g4.all isHexDigitB = true ∧ g5.all isHexDigitB = true := by
  unfold isUuidStr at h
  simp only [Bool.decide_and, Bool.and_eq_true, decide_eq_true_eq] at h
  obtain ⟨h36, hg1, hp8, hg2, hp13, hg3, hp18, hg4, hp23, hg5⟩ := h
  refine ⟨s.take 8, (s.drop 9).take 4, (s.drop 14).take 4, (s.drop 19).take 4, s.drop 24,
    ?_, ?_, ?_, ?_, ?_, ?_, hg1, hg2, hg3, hg4, hg5⟩
  · have step : ∀ n : Nat, n < 36 → s.getD n 0 = 45 → s.drop n = 45 :: s.drop (n + 1) := by
      intro n hn hd
      rw [List.drop_eq_getElem_cons (by omega)]
      congr 1
      rw [List.getD_eq_getElem?_getD, List.getElem?_eq_getElem (by omega)] at hd
      simpa using hd
    have e1 : s = s.take 8 ++ s.drop 8 := (List.take_append_drop 8 s).symm
    have e2 : s.drop 8 = 45 :: s.drop 9 := step 8 (by omega) hp8
    have e3 : s.drop 9 = (s.drop 9).take 4 ++ s.drop 13 := by
      conv =>
        lhs
        rw [← List.take_append_drop 4 (s.drop 9)]
      rw [List.drop_drop]
    have e4 : s.drop 13 = 45 :: s.drop 14 := step 13 (by omega) hp13
    have e5 : s.drop 14 = (s.drop 14).take 4 ++ s.drop 18 := by
      conv =>
        lhs
        rw [← List.take_append_drop 4 (s.drop 14)]
      rw [List.drop_drop]
    have e6 : s.drop 18 = 45 :: s.drop 19 := step 18 (by omega) hp18
    have e7 : s.drop 19 = (s.drop 19).take 4 ++ s.drop 23 := by
      conv =>
        lhs
        rw [← List.take_append_drop 4 (s.drop 19)]
      rw [List.drop_drop]
    have e8 : s.drop 23 = 45 :: s.drop 24 := step 23 (by omega) hp23
    calc s = s.take 8 ++ s.drop 8 := e1
    _ = s.take 8 ++ 45 :: ((s.drop 9).take 4 ++ 45 :: ((s.drop 14).take 4 ++ 45 ::
        ((s.drop 19).take 4 ++ 45 :: s.drop 24))) := by
      conv_lhs => rw [e2, e3, e4, e5, e6, e7, e8]
  · simp
    omega
  · simp
    omega
  · simp
    omega
  · simp
    omega
  · simp
    omega

theorem bytesToUuid_uuidToBytes {s : JSStr} (h : isUuidStr s = true) :
    bytesToUuid (uuidToBytes s) = lowerStr s := by
  obtain ⟨g1, g2, g3, g4, g5, hs, l1, l2, l3, l4, l5, a1, a2, a3, a4, a5⟩ :=
    isUuidStr_decomp h
  have hstep : ∀ l : JSStr, (45 :: l).filter (fun c => c ≠ 45) =
      l.filter (fun c => c ≠ 45) := by
    intro l
    simp
  have hfilter : s.filter (fun c => c ≠ 45) = g1 ++ (g2 ++ (g3 ++ (g4 ++ g5))) := by
    rw [hs]
    simp only [List.filter_append, hstep]
    rw [filter_ne_45_eq_self (all_hex_ne_45 a1), filter_ne_45_eq_self (all_hex_ne_45 a2),
      filter_ne_45_eq_self (all_hex_ne_45 a3), filter_ne_45_eq_self (all_hex_ne_45 a4),
      filter_ne_45_eq_self (all_hex_ne_45 a5)]
  set hexcat := g1 ++ (g2 ++ (g3 ++ (g4 ++ g5))) with hhexcat
  have hcatlen : hexcat.length = 32 := by
    simp [hhexcat]
    omega
  have hcathex : ∀ c ∈ hexcat, isHexDigitB c = true := by
    intro c hc
    simp only [hhexcat, List.mem_append] at hc
    rw [List.all_eq_true] at a1 a2 a3 a4 a5
    rcases hc with hc | hc | hc | hc | hc
    · exact a1 c hc
    · exact a2 c hc
    · exact a3 c hc
    · exact a4 c hc
    · exact a5 c hc
  have hbytes : uuidToBytes s = (List.range 16).map
      (fun i => parseIntPair (hexcat.getD (2 * i) 0) (hexcat.getD (2 * i + 1) 0)) := by
    unfold uuidToBytes
    rw [hfilter]
  have hhex : bytesToHex (uuidToBytes s) = lowerStr hexcat := by
    rw [hbytes]
    exact pairs_lower hexcat (by omega) hcathex
  unfold bytesToUuid
  rw [hhex]
  have hl : lowerStr hexcat = lowerStr g1 ++ (lowerStr g2 ++ (lowerStr g3 ++
      (lowerStr g4 ++ lowerStr g5))) := by
    simp [lowerStr, hhexcat]
  have ml1 : (lowerStr g1).length = 8 := by simp [lowerStr, l1]
  have ml2 : (lowerStr g2).length = 4 := by simp [lowerStr, l2]
  have ml3 : (lowerStr g3).length = 4 := by simp [lowerStr, l3]
  have ml4 : (lowerStr g4).length = 4 := by simp [lowerStr, l4]
  have take8 : (lowerStr hexcat).take 8 = lowerStr g1 := by
    rw [hl]
    exact List.take_left' ml1
  have drop8 : (lowerStr hexcat).drop 8 = lowerStr g2 ++ (lowerStr g3 ++
      (lowerStr g4 ++ lowerStr g5)) := by
    rw [hl]
    exact List.drop_left' ml1
  have drop12 : (lowerStr hexcat).drop 12 = lowerStr g3 ++ (lowerStr g4 ++ lowerStr g5) := by
    have h12 : (12 : Nat) = 8 + 4 := by norm_num
    rw [h12, ← List.drop_drop, drop8]
    exact List.drop_left' ml2
  have drop16 : (lowerStr hexcat).drop 16 = lowerStr g4 ++ lowerStr g5 := by
    have h16 : (16 : Nat) = 12 + 4 := by norm_num
    rw [h16, ← List.drop_drop, drop12]
    exact List.drop_left' ml3
  have drop20 : (lowerStr hexcat).drop 20 = lowerStr g5 := by
    have h20 : (20 : Nat) = 16 + 4 := by norm_num
    rw [h20, ← List.drop_drop, drop16]
    exact List.drop_left' ml4
  rw [take8, drop8, drop12, drop16, drop20]
  rw [List.take_left' ml2, List.take_left' ml3, List.take_left' ml4]
  rw [hs]
  simp [lowerStr, lowerChar]

/-! ## Lemmas: conversation-id packing and token round-trip -/

/-- The conversation ids the packing round-trips: UUID-shaped, or a
string of 1 to 65535 UTF-8 bytes (the packer stores the long-form
length in 16 bits, and the unpacker rejects the resulting mismatch; an
empty string collides with the long-form sentinel). -/
def PackableConvId (s : JSStr) : Prop :=
  isUuidStr s = true ∨ (1 ≤ s.length ∧ s.length ≤ 65535)

instance (s : JSStr) : Decidable (PackableConvId s) := by
  unfold PackableConvId; infer_instance

theorem uuidToBytes_length (s : JSStr) : (uuidToBytes s).length = 16 := by
  unfold uuidToBytes
  simp

theorem unpack_pack {s : JSStr} (h : PackableConvId s) :
    unpackConversationId (packConversationId s) =
      some (if isUuidStr s then lowerStr s else s) := by
  unfold packConversationId
  by_cases hu : isUuidStr s = true
  · simp only [hu, if_true]
    unfold unpackConversationId TYPE_UUID
    dsimp only
    rw [if_pos rfl]
    rw [if_pos (show (1 :: uuidToBytes s).length = 17 by simp [uuidToBytes_length])]
    rw [bytesToUuid_uuidToBytes hu]
  · have hfalse : isUuidStr s = false := by simpa using hu
    rw [hfalse]
    simp only [Bool.false_eq_true, if_false]
    rcases h with h | ⟨hlo, hhi⟩
    · exact absurd h hu
    by_cases hshort : s.length ≤ 255
    · simp only [hshort, if_true]
      unfold unpackConversationId TYPE_STRING TYPE_UUID
      match s, hlo with
      | c :: t, _ =>
        dsimp only
        rw [if_neg (show ¬ (2 : Nat) = 1 by norm_num), if_pos (rfl : (2 : Nat) = 2),
          if_neg (show ¬ (c :: t).length = 0 by simp), if_pos rfl]
    · simp only [hshort, if_false]
      unfold unpackConversationId TYPE_STRING TYPE_UUID
      dsimp only
      rw [if_neg (show ¬ (2 : Nat) = 1 by norm_num), if_pos (rfl : (2 : Nat) = 2),
        if_pos rfl]
      rw [if_pos (show s.length = s.length / 256 % 256 * 256 + s.length % 256 by omega)]

theorem packConversationId_bytes {s : JSStr} (hs : ValidBytes s) :
    ValidBytes (packConversationId s) := by
  unfold packConversationId
  by_cases hu : isUuidStr s = true
  · simp only [hu, if_true]
    intro x hx
    rcases List.mem_cons.mp hx with rfl | hx
    · unfold TYPE_UUID
      omega
    · unfold uuidToBytes at hx
      simp only [List.mem_map] at hx
      obtain ⟨i, _, rfl⟩ := hx
      exact parseIntPair_lt _ _
  · simp only [hu, if_false]
    by_cases hshort : s.length ≤ 255
    · simp only [hshort, if_true]
      intro x hx
      rcases List.mem_cons.mp hx with rfl | hx
      · unfold TYPE_STRING
        omega
      rcases List.mem_cons.mp hx with rfl | hx
      · omega
      · exact hs x hx
    · simp only [hshort, if_false]
      intro x hx
      rcases List.mem_cons.mp hx with rfl | hx
      · unfold TYPE_STRING
        omega
      rcases List.mem_cons.mp hx with rfl | hx
      · omega
      rcases List.mem_cons.mp hx with rfl | hx
      · omega
      rcases List.mem_cons.mp hx with rfl | hx
      · omega
      · exact hs x hx

theorem decrypt_encrypt_token (E : ExtCrypto) {nonce : Bytes}
    (hnonce : nonce.length = 12) (conversationId creatorInboxId : JSStr)
    (privateKey : Bytes) (hconv : PackableConvId conversationId) :
    decryptConversationToken E
      (encryptConversationToken E nonce conversationId creatorInboxId privateKey)
      creatorInboxId privateKey =
      some (if isUuidStr conversationId then lowerStr conversationId
        else conversationId) := by
  unfold encryptConversationToken decryptConversationToken
  simp only []
  rw [if_neg (by unfold FORMAT_VERSION; omega)]
  unfold chachaEncrypt chachaDecrypt
  have hctlen := E.cipherEncrypt_length (deriveInviteKey E privateKey creatorInboxId)
    nonce creatorInboxId (packConversationId conversationId)
  rw [if_neg (by
    simp only [List.length_append, hnonce]
    unfold NONCE_LENGTH TAG_LENGTH
    omega)]
  unfold NONCE_LENGTH
  rw [List.take_left' hnonce, List.drop_left' hnonce, E.cipher_roundtrip]
  exact unpack_pack hconv

theorem encryptConversationToken_bytes (E : ExtCrypto) {nonce : Bytes}
    (hn : ValidBytes nonce) {conversationId : JSStr} (hc : ValidBytes conversationId)
    (creatorInboxId : JSStr) (privateKey : Bytes) :
    ValidBytes (encryptConversationToken E nonce conversationId creatorInboxId privateKey) := by
  unfold encryptConversationToken chachaEncrypt
  intro x hx
  rcases List.mem_cons.mp hx with rfl | hx
  · unfold FORMAT_VERSION
    omega
  rcases List.mem_append.mp hx with hx | hx
  · exact hn x hx
  · exact E.cipherEncrypt_bytes _ _ _ _ (packConversationId_bytes hc) x hx

/-! ## Lemmas: constant-time comparison and verification -/

theorem lor_eq_zero {a b : Nat} (h : a ||| b = 0) : a = 0 ∧ b = 0 := by
  constructor
  · apply Nat.eq_of_testBit_eq
    intro k
    have hk := congrArg (fun x => Nat.testBit x k) h
    simp only [Nat.testBit_lor, Nat.zero_testBit, Bool.or_eq_false_iff] at hk
    simp [hk.1]
  · apply Nat.eq_of_testBit_eq
    intro k
    have hk := congrArg (fun x => Nat.testBit x k) h
    simp only [Nat.testBit_lor, Nat.zero_testBit, Bool.or_eq_false_iff] at hk
    simp [hk.2]

theorem foldl_lor_eq_zero {l : List Nat} {acc : Nat}
    (h : l.foldl (fun a x => a ||| x) acc = 0) : acc = 0 ∧ ∀ x ∈ l, x = 0 := by
  induction l generalizing acc with
  | nil =>
    refine ⟨h, ?_⟩
    intro x hx
    simp at hx
  | cons y t ih =>
    simp only [List.foldl_cons] at h
    obtain ⟨hacc, ht⟩ := ih h
    obtain ⟨h1, h2⟩ := lor_eq_zero hacc
    refine ⟨h1, ?_⟩
    intro x hx
    rcases List.mem_cons.mp hx with rfl | hx
    · exact h2
    · exact ht x hx

theorem constantTimeEqual_eq_true_iff (a b : Bytes) :
    constantTimeEqual a b = true ↔ a = b := by
  unfold constantTimeEqual
  constructor
  · intro h
    by_cases hlen : a.length ≠ b.length
    · simp [hlen] at h
    · push_neg at hlen
      rw [if_neg (by omega)] at h
      simp only [decide_eq_true_eq] at h
      have hfold := @foldl_lor_eq_zero ((a.zip b).map (fun p => p.1 ^^^ p.2)) 0 (by
          rw [List.foldl_map]
          exact h)
      have hzip : ∀ p ∈ a.zip b, p.1 = p.2 := by
        intro p hp
        have := hfold.2 (p.1 ^^^ p.2) (List.mem_map_of_mem _ hp)
        exact Nat.xor_eq_zero.mp this
      exact List.ext_getElem hlen (by
        intro i h1 h2
        have := hzip (a[i], b[i]) (by
          rw [List.mem_iff_getElem]
          exact ⟨i, by simp [List.length_zip]; omega, by simp⟩)
        exact this)
  · rintro rfl
    rw [if_neg (by omega)]
    simp only [decide_eq_true_eq]
    have hself : ∀ l : Bytes, (l.zip l).foldl (fun acc p => acc ||| (p.1 ^^^ p.2)) 0 = 0 := by
      intro l
      induction l with
      | nil => rfl
      | cons x t ih =>
        rw [List.zip_cons_cons, List.foldl_cons]
        simpa using ih
    exact hself a

theorem verifyInvite_true_iff (E : ExtCrypto) (si : SignedInvite) (pk : Bytes) :
    verifyInvite E si pk = true ↔
      ∃ rec nr ne, recoverPublicKey E (E.sha256 si.payload) si.signature = some rec ∧
        normalizePublicKey E rec = some nr ∧ normalizePublicKey E pk = some ne ∧
        constantTimeEqual nr ne = true := by
  unfold verifyInvite
  cases h1 : recoverPublicKey E (E.sha256 si.payload) si.signature with
  | none => simp [h1]
  | some rec =>
    cases h2 : normalizePublicKey E rec with
    | none => simp [h1, h2]
    | some nr =>
      cases h3 : normalizePublicKey E pk with
      | none => simp [h1, h2, h3]
      | some ne => simp [h1, h2, h3]

/-- A signature freshly produced by the library's `sign` verifies
against the signer's public key, through the repository's recovery and
normalization path. -/
theorem verifyWithPriv_of_sign (E : ExtCrypto) {hsh priv c : Bytes} {r : Nat}
    (hs : E.nobleSign hsh priv = some (c, r)) {payload : Bytes}
    (hp : E.sha256 payload = hsh) :
    verifyInviteWithPrivateKey E { payload := payload, signature := c ++ [r] } priv =
      some true := by
  obtain ⟨hclen, hr3, hcb, pub, hpub, hpublen, hrec⟩ := E.sign_spec _ _ _ _ hs
  unfold verifyInviteWithPrivateKey getPublicKey
  rw [hpub]
  show some (verifyInvite E { payload := payload, signature := c ++ [r] } pub) = some true
  congr 1
  rw [verifyInvite_true_iff]
  refine ⟨pub, pub, pub, ?_, ?_, ?_, ?_⟩
  · unfold recoverPublicKey
    have hlen : (c ++ [r]).length = 65 := by
      simp [hclen]
    rw [if_neg (by simp [hlen])]
    have htake : (c ++ [r]).take 64 = c := List.take_left' hclen
    have hget : (c ++ [r]).getD 64 0 = r := by
      rw [List.getD_append_right c [r] 0 64 (by omega), hclen]
      rfl
    rw [htake, hget, if_neg (by omega)]
    simp only []
    rw [hp]
    exact hrec
  · unfold normalizePublicKey
    rw [if_pos hpublen]
  · unfold normalizePublicKey
    rw [if_pos hpublen]
  · exact (constantTimeEqual_eq_true_iff pub pub).mpr rfl

/-! ## The mint/parse pipeline characterisation

Everything `parseInviteSlug` recovers from a slug freshly produced by
`createInviteSlug`, for arbitrary crypto and DEFLATE primitives
satisfying the library contracts. -/

/-- The exact `SignedInvite` produced when signing succeeds. -/
def mkSignedInvite (p : InvitePayload) (c : Bytes) (r : Nat) : SignedInvite where
  payload := encodeInvitePayload p
  signature := c ++ [r]

/-- The exact `ParsedInvite` recovered from the slug. -/
def mkParsedInvite (p : InvitePayload) (c : Bytes) (r : Nat) (now : Int) : ParsedInvite where
  signedInvite := mkSignedInvite p c r
  payload := fromRawInvitePayload (rawOfPayload p)
  creatorInboxId := bytesToHex p.creatorInboxId
  isExpired :=
    match (fromRawInvitePayload (rawOfPayload p)).expiresAtUnix with
    | some v => decide (v < now)
    | none => false
  isConversationExpired :=
    match (fromRawInvitePayload (rawOfPayload p)).conversationExpiresAtUnix with
    | some v => decide (v < now)
    | none => false

theorem createParse_spec (E : ExtCrypto) (P : Pako) (nonce : Bytes)
    (o : CreateInviteOptions) (now : Int) {p : InvitePayload}
    (hp : buildInvitePayload E nonce o = some p) {c : Bytes} {r : Nat}
    (hsig : E.nobleSign (E.sha256 (encodeInvitePayload p)) o.privateKey = some (c, r))
    (hvb : ValidBytes (encodeInvitePayload p))
    (hsize : SizeOk P (encodeSignedInvite (mkSignedInvite p c r))) :
    createInviteSlug E P nonce o =
      some (encodeToSlug P (encodeSignedInvite (mkSignedInvite p c r))) ∧
    parseInviteSlug P now (encodeToSlug P (encodeSignedInvite (mkSignedInvite p c r))) =
      some (mkParsedInvite p c r now) := by
  obtain ⟨hclen, hr3, hcb, pub, hpub, hpublen, hrec⟩ := E.sign_spec _ _ _ _ hsig
  have hsigbytes : ValidBytes (c ++ [r]) := by
    intro x hx
    rcases List.mem_append.mp hx with hx | hx
    · exact hcb x hx
    · simp at hx
      omega
  constructor
  · unfold createInviteSlug
    rw [hp]
    simp only [Option.bind_eq_bind, Option.some_bind]
    unfold signWithRecovery
    rw [hsig]
    rfl
  · unfold parseInviteSlug
    dsimp only
    rw [parseInviteCode_encodeToSlug]
    rw [decodeFromSlug_encodeToSlug
      (@encodeSignedInvite_bytes (mkSignedInvite p c r) hvb hsigbytes)
      (by rw [encodeSignedInvite_headD]; unfold COMPRESSION_MARKER; omega) hsize]
    simp only [Option.bind_eq_bind, Option.some_bind]
    rw [siDecode_encode]
    simp only [Option.some_bind]
    show (decodeInvitePayload (encodeInvitePayload p)).bind _ = _
    rw [decode_encodeInvitePayload]
    rfl

/-! ## Lemmas: metadata codec pipeline -/

theorem metadataCodec_spec (P : Pako) (m : ConversationCustomMetadata)
    (h1 : ValidBytes m.tag)
    (h2 : ∀ p ∈ m.profiles, ValidBytes p.inboxId ∧ ValidOptStr p.name ∧ ValidOptStr p.image)
    (h3 : ∀ k, m.imageEncryptionKey = some k → ValidBytes k)
    (hsize : SizeOk P (encodeConversationMetadata m)) :
    decodeMetadata P (encodeMetadata P m) = some (rawOfMeta m) := by
  unfold decodeMetadata encodeMetadata
  rw [base64UrlDecode_encode (compressIfSmaller_bytes
    (encodeConversationMetadata_bytes h1 h2 h3))]
  simp only [Option.bind_eq_bind, Option.some_bind]
  rw [decompress_compressIfSmaller
    (by rw [encodeConversationMetadata_headD]; unfold COMPRESSION_MARKER; omega) hsize]
  simp only [Option.some_bind]
  exact metaDecode_encode m

/-! ## Lemmas: profile upsert -/

/-- Whether an entry belongs to the caller (`findIndex` predicate). -/
def matchesInbox (inboxIdHex : JSStr) (p : ConversationProfile) : Bool :=
  bytesToHex p.inboxId = inboxIdHex

/-- Recursive characterisation of find-and-replace-or-append. -/
def upsertGo (inboxIdHex : JSStr) (newP : ConversationProfile) :
    List ConversationProfile → List ConversationProfile
  | [] => [newP]
  | p :: t =>
    if matchesInbox inboxIdHex p then newP :: t
    else p :: upsertGo inboxIdHex newP t

theorem upsertProfile_eq_go (profiles : List ConversationProfile) (inboxIdHex : JSStr)
    (inboxIdBytes : Bytes) (name image : Option JSStr) :
    upsertProfile profiles inboxIdHex inboxIdBytes name image =
      upsertGo inboxIdHex { inboxId := inboxIdBytes, name := name, image := image }
        profiles := by
  induction profiles with
  | nil => rfl
  | cons p t ih =>
    unfold upsertProfile upsertGo matchesInbox
    unfold upsertProfile at ih
    rw [List.findIdx?_cons, List.findIdx?_succ]
    by_cases hm : bytesToHex p.inboxId = inboxIdHex
    · simp [hm]
    · have hd : ¬(decide (bytesToHex p.inboxId = inboxIdHex) = true) := by simpa using hm
      rw [if_neg hd, if_neg hd]
      cases hf : t.findIdx? (fun q => decide (bytesToHex q.inboxId = inboxIdHex)) with
      | none =>
        rw [hf] at ih
        simpa using ih
      | some i =>
        rw [hf] at ih
        simpa [List.set_cons_succ] using ih

theorem mem_upsertGo {q : ConversationProfile} {h : JSStr} {newP : ConversationProfile}
    {l : List ConversationProfile} (hq : q ∈ upsertGo h newP l) : q = newP ∨ q ∈ l := by
  induction l with
  | nil => simpa [upsertGo] using hq
  | cons p t ih =>
    unfold upsertGo at hq
    split at hq
    · rcases List.mem_cons.mp hq with rfl | hq
      · exact Or.inl rfl
      · exact Or.inr (List.mem_cons_of_mem _ hq)
    · rcases List.mem_cons.mp hq with rfl | hq
      · exact Or.inr (List.mem_cons_self _ _)
      · rcases ih hq with h1 | h1
        · exact Or.inl h1
        · exact Or.inr (List.mem_cons_of_mem _ h1)

/-- The uniqueness invariant: at most one profile entry per inbox id. -/
def UniqProfiles (l : List ConversationProfile) : Prop :=
  l.Pairwise (fun p q => bytesToHex p.inboxId ≠ bytesToHex q.inboxId)

instance (l : List ConversationProfile) : Decidable (UniqProfiles l) := by
  unfold UniqProfiles
  exact List.instDecidablePairwise l

theorem upsertGo_pairwise {h : JSStr} {newP : ConversationProfile}
    (hkey : bytesToHex newP.inboxId = h) {l : List ConversationProfile}
    (hu : UniqProfiles l) : UniqProfiles (upsertGo h newP l) := by
  induction l with
  | nil => simp [upsertGo, UniqProfiles]
  | cons p t ih =>
    rw [UniqProfiles, List.pairwise_cons] at hu
    unfold upsertGo
    split
    · rename_i hm
      have hph : bytesToHex p.inboxId = h := of_decide_eq_true hm
      rw [UniqProfiles, List.pairwise_cons]
      refine ⟨fun q hq => ?_, hu.2⟩
      rw [hkey, ← hph]
      exact hu.1 q hq
    · rename_i hm
      rw [UniqProfiles, List.pairwise_cons]
      refine ⟨fun q hq => ?_, ih hu.2⟩
      rcases mem_upsertGo hq with rfl | hq'
      · rw [hkey]
        intro hc
        exact hm (decide_eq_true hc)
      · exact hu.1 q hq'

theorem upsertGo_filter_other {h : JSStr} {newP : ConversationProfile}
    (hkey : bytesToHex newP.inboxId = h) (l : List ConversationProfile) :
    (upsertGo h newP l).filter (fun p => bytesToHex p.inboxId ≠ h) =
      l.filter (fun p => bytesToHex p.inboxId ≠ h) := by
  induction l with
  | nil => simp [upsertGo, hkey]
  | cons p t ih =>
    unfold upsertGo
    split
    · rename_i hm
      have hph : bytesToHex p.inboxId = h := of_decide_eq_true hm
      simp only [List.filter_cons]
      rw [if_neg (by simp [hkey]), if_neg (by simp [hph])]
    · rename_i hm
      have hph : bytesToHex p.inboxId ≠ h := fun hc => hm (decide_eq_true hc)
      simp only [List.filter_cons]
      rw [if_pos (by simpa using hph), if_pos (by simpa using hph), ih]

theorem upsertGo_filter_key {h : JSStr} {newP : ConversationProfile}
    (hkey : bytesToHex newP.inboxId = h) {l : List ConversationProfile}
    (hu : UniqProfiles l) :
    (upsertGo h newP l).filter (fun p => bytesToHex p.inboxId = h) = [newP] := by
  induction l with
  | nil => simp [upsertGo, hkey]
  | cons p t ih =>
    rw [UniqProfiles, List.pairwise_cons] at hu
    unfold upsertGo
    split
    · rename_i hm
      have hph : bytesToHex p.inboxId = h := of_decide_eq_true hm
      simp only [List.filter_cons]
      rw [if_pos (by simp [hkey])]
      have hnone : t.filter (fun p => bytesToHex p.inboxId = h) = [] := by
        rw [List.filter_eq_nil_iff]
        intro q hq
        have := hu.1 q hq
        rw [hph] at this
        simp [Ne.symm this]
      rw [hnone]
    · rename_i hm
      have hph : bytesToHex p.inboxId ≠ h := fun hc => hm (decide_eq_true hc)
      simp only [List.filter_cons]
      rw [if_neg (by simpa using hph), ih hu.2]

theorem upsertGo_shape {h : JSStr} {newP : ConversationProfile}
    (hkey : bytesToHex newP.inboxId = h) {l : List ConversationProfile}
    (hu : UniqProfiles l) :
    upsertGo h newP l =
      if l.any (fun p => bytesToHex p.inboxId = h)
      then l.map (fun p => if bytesToHex p.inboxId = h then newP else p)
      else l ++ [newP] := by
  induction l with
  | nil => simp [upsertGo]
  | cons p t ih =>
    rw [UniqProfiles, List.pairwise_cons] at hu
    unfold upsertGo
    split
    · rename_i hm
      have hph : bytesToHex p.inboxId = h := of_decide_eq_true hm
      rw [if_pos (by simp [hph])]
      simp only [List.map_cons]
      rw [if_pos hph]
      congr 1
      have hfix : ∀ q ∈ t, (if bytesToHex q.inboxId = h then newP else q) = q := by
        intro q hq
        have := hu.1 q hq
        rw [hph] at this
        rw [if_neg (Ne.symm this)]
      have hmap : t.map (fun q => if bytesToHex q.inboxId = h then newP else q) =
          t.map (fun q => q) := List.map_congr_left hfix
      rw [hmap]
      simp
    · rename_i hm
      have hph : bytesToHex p.inboxId ≠ h := fun hc => hm (decide_eq_true hc)
      rw [ih hu.2]
      simp only [List.any_cons]
      by_cases ha : t.any (fun q => decide (bytesToHex q.inboxId = h)) = true
      · rw [if_pos ha, if_pos (by simp [ha])]
        simp only [List.map_cons]
        rw [if_neg hph]
      · rw [if_neg ha, if_neg (by simp [hph]; simpa using ha)]
        simp

/-! ## A worked mint/parse example over the toy primitives -/

/-- Private key of the worked example. -/
def toyPriv : Bytes := List.replicate 32 1

/-- AEAD nonce of the worked example. -/
def toyNonce : Bytes := List.replicate 12 0

/-- The compact signature `extCryptoToy` produces for `toyPriv`. -/
def toySig : Bytes := toyPriv ++ toyPriv

/-- Invite options of the worked example, with expiry `e` and
conversation expiry `ce`. -/
def toyOptions (e ce : Option Int) : CreateInviteOptions where
  conversationId := s2b "x"
  inviteTag := s2b "t"
  creatorInboxId := s2b "ab"
  privateKey := toyPriv
  expiresAt := e
  conversationExpiresAt := ce

/-- The payload `createInviteSlug` builds from `toyOptions e ce`. -/
def toyPayload (e ce : Option Int) : InvitePayload where
  conversationToken :=
    encryptConversationToken extCryptoToy toyNonce (s2b "x") (s2b "ab") toyPriv
  creatorInboxId := [171]
  tag := s2b "t"
  expiresAtUnix := e
  conversationExpiresAtUnix := ce

theorem toyBuild (e ce : Option Int) :
    buildInvitePayload extCryptoToy toyNonce (toyOptions e ce) =
      some (toyPayload e ce) := by
  unfold buildInvitePayload toyOptions
  dsimp only
  rw [show hexToBytes (s2b "ab") = some [171] from by decide]
  rfl

theorem toySign (h : Bytes) : extCryptoToy.nobleSign h toyPriv = some (toySig, 0) := by
  show (if toyPriv.length = 32 ∧ ValidBytes toyPriv then
    some (toyPriv ++ toyPriv, 0) else none) = some (toySig, 0)
  rw [if_pos (by decide)]
  rfl

theorem toyVb (e ce : Option Int) :
    ValidBytes (encodeInvitePayload (toyPayload e ce)) := by
  apply encodeInvitePayload_bytes
  · show ValidBytes (encryptConversationToken extCryptoToy toyNonce (s2b "x")
      (s2b "ab") toyPriv)
    decide
  · show ValidBytes [171]
    decide
  · show ValidBytes (s2b "t")
    decide
  · show ValidOptStr none
    decide
  · show ValidOptStr none
    decide
  · show ValidOptStr none
    decide

theorem toyCreateParse (e ce : Option Int) (now : Int) :
    createInviteSlug extCryptoToy pakoToy toyNonce (toyOptions e ce) =
      some (encodeToSlug pakoToy
        (encodeSignedInvite (mkSignedInvite (toyPayload e ce) toySig 0))) ∧
    parseInviteSlug pakoToy now
        (encodeToSlug pakoToy
          (encodeSignedInvite (mkSignedInvite (toyPayload e ce) toySig 0))) =
      some (mkParsedInvite (toyPayload e ce) toySig 0 now) :=
  createParse_spec extCryptoToy pakoToy toyNonce (toyOptions e ce) now
    (toyBuild e ce) (toySign _) (toyVb e ce) (pakoToy_sizeOk _)

/-! ## Lemmas: timestamp normalization as the identity -/

theorem normTs_eq_self {o : Option Int}
    (h : ∀ v, o = some v → v ≠ 0 ∧ -(2 ^ 63) ≤ v ∧ v < 2 ^ 63) : normTs o = o := by
  cases o with
  | none => rfl
  | some v =>
    obtain ⟨h0, h1, h2⟩ := h v rfl
    show (if v = 0 then none else some (toInt64 (toUInt64 v))) = some v
    rw [if_neg h0, toInt64_toUInt64 h1 h2]

theorem rawOfMeta_eq_self {m : ConversationCustomMetadata}
    (h : ∀ v, m.expiresAtUnix = some v → v ≠ 0 ∧ -(2 ^ 63) ≤ v ∧ v < 2 ^ 63) :
    rawOfMeta m = m := by
  obtain ⟨tag, profiles, exp, key⟩ := m
  unfold rawOfMeta
  rw [normTs_eq_self h]

theorem fromRaw_rawOf_exp (p : InvitePayload)
    (h : ∀ v, p.expiresAtUnix = some v → v ≠ 0 ∧ -(2 ^ 63) ≤ v ∧ v < 2 ^ 63) :
    (fromRawInvitePayload (rawOfPayload p)).expiresAtUnix = p.expiresAtUnix := by
  unfold fromRawInvitePayload rawOfPayload
  dsimp only
  rw [normTs_eq_self h]
  cases ho : p.expiresAtUnix with
  | none => rfl
  | some v =>
    dsimp only
    rw [if_neg (h v ho).1]

theorem fromRaw_rawOf_conv (p : InvitePayload)
    (h : ∀ v, p.conversationExpiresAtUnix = some v → v ≠ 0 ∧ -(2 ^ 63) ≤ v ∧ v < 2 ^ 63) :
    (fromRawInvitePayload (rawOfPayload p)).conversationExpiresAtUnix =
      p.conversationExpiresAtUnix := by
  unfold fromRawInvitePayload rawOfPayload
  dsimp only
  rw [normTs_eq_self h]
  cases ho : p.conversationExpiresAtUnix with
  | none => rfl
  | some v =>
    dsimp only
    rw [if_neg (h v ho).1]

/-! ## Lemmas: the slug heuristic, spelled out -/

theorem looksLikeInviteSlug_iff (text : JSStr) :
    looksLikeInviteSlug text = true ↔
      50 ≤ (jsTrim text).length ∧ (jsTrim text).all isSlugChar = true := by
  unfold looksLikeInviteSlug
  dsimp only
  by_cases h : (jsTrim text).length < 50
  · rw [if_pos h]
    simp only [Bool.false_eq_true, false_iff, not_and]
    intro h1
    omega
  · rw [if_neg h]
    constructor
    · intro ha
      exact ⟨by omega, ha⟩
    · intro hc
      exact hc.2

/-! ## The claims -/

/-- C2 (amended): `verifyInvite` is a total boolean — it returns `true`
exactly when recovery, normalization of both keys and the constant-time
comparison all succeed, so every failure inside the verification body is
reported as `false` — but `verifyInviteWithPrivateKey` derives the
public key *outside* the catch, so a derivation failure propagates as an
exception (`none`) instead of `false`. -/
theorem C2_verify_error_handling (E : ExtCrypto) (si : SignedInvite) (pk priv : Bytes) :
    (verifyInvite E si pk = true ↔
      ∃ rec nr ne, recoverPublicKey E (E.sha256 si.payload) si.signature = some rec ∧
        normalizePublicKey E rec = some nr ∧ normalizePublicKey E pk = some ne ∧
        constantTimeEqual nr ne = true) ∧
    verifyInviteWithPrivateKey E si priv = (getPublicKey E priv).map (verifyInvite E si) := by
  refine ⟨verifyInvite_true_iff E si pk, ?_⟩
  unfold verifyInviteWithPrivateKey
  cases h : getPublicKey E priv <;> rfl

/-- C2 counterexample: on a private key whose public-key derivation
throws, `verifyInviteWithPrivateKey` propagates the exception (`none`)
instead of catching it and reporting `false`. -/
theorem C2_counter_derivation_leaks :
    verifyInviteWithPrivateKey extCryptoToy { payload := [], signature := [] } [] =
      none := by decide

/-- C6 (amended): `decompress (compressIfSmaller x) = x` for every input
whose first byte is not the compression marker `0x78` (and whose size
admits the compressed framing), over any DEFLATE codec satisfying the
library contract. -/
theorem C6_compression_roundtrip (P : Pako) (x : Bytes)
    (hmark : x.headD 0 ≠ COMPRESSION_MARKER) (hsize : SizeOk P x) :
    decompress P (compressIfSmaller P x) = some x :=
  decompress_compressIfSmaller hmark hsize

theorem C6_compression_roundtrip_witness :
    decompress pakoToy (compressIfSmaller pakoToy [5]) = some [5] :=
  C6_compression_roundtrip pakoToy [5] (by decide) (pakoToy_sizeOk [5])

/-- C6 counterexample: a one-byte input equal to the marker `0x78` is
returned uncompressed by `compressIfSmaller`, yet `decompress`
misreads it as compressed and fails instead of returning it. -/
theorem C6_counter_marker_byte :
    decompress pakoToy (compressIfSmaller pakoToy [120]) = none := by decide

/-- C7 (amended): the `InvitePayload` decoder does treat a wire-present
zero in `expires_at_unix` / `conversation_expires_at_unix` as "not set"
— but the `ConversationCustomMetadata` decoder does not (see the
counterexample). -/
theorem C7_zero_timestamp_unset (bs : Bytes) (r : RawInvitePayload)
    (h : pbDecodeInvitePayload bs = some r)
    (hz : r.expiresAtUnix = some 0) (hcz : r.conversationExpiresAtUnix = some 0) :
    decodeInvitePayload bs = some (fromRawInvitePayload r) ∧
    (fromRawInvitePayload r).expiresAtUnix = none ∧
    (fromRawInvitePayload r).conversationExpiresAtUnix = none := by
  refine ⟨by unfold decodeInvitePayload; rw [h]; rfl, ?_, ?_⟩
  · unfold fromRawInvitePayload
    dsimp only
    rw [hz]
    rfl
  · unfold fromRawInvitePayload
    dsimp only
    rw [hcz]
    rfl

theorem C7_zero_timestamp_unset_witness :
    decodeInvitePayload (fieldFixed64 7 0 ++ fieldFixed64 8 0) =
      some (fromRawInvitePayload
        { conversationExpiresAtUnix := some 0, expiresAtUnix := some 0 }) ∧
    (fromRawInvitePayload
      { conversationExpiresAtUnix := some 0, expiresAtUnix := some 0 }
        : InvitePayload).expiresAtUnix = none ∧
    (fromRawInvitePayload
      { conversationExpiresAtUnix := some 0, expiresAtUnix := some 0 }
        : InvitePayload).conversationExpiresAtUnix = none :=
  C7_zero_timestamp_unset (fieldFixed64 7 0 ++ fieldFixed64 8 0)
    { conversationExpiresAtUnix := some 0, expiresAtUnix := some 0 }
    (by
      unfold pbDecodeInvitePayload
      rw [show fieldFixed64 7 0 ++ fieldFixed64 8 0 =
        fieldFixed64 7 0 ++ (fieldFixed64 8 0 ++ ([] : Bytes)) from by simp]
      rw [ipLoop_field7 (by norm_num), ipLoop_field8 (by norm_num), ipLoop_nil]
      rfl)
    rfl rfl

/-- C7 counterexample: the metadata decoder keeps a wire-present zero
`expires_at_unix` as the value 0 instead of treating it as "not set". -/
theorem C7_counter_metadata_zero_kept :
    decodeConversationMetadata (fieldFixed64 3 0) =
      some { tag := [], profiles := [], expiresAtUnix := some 0,
             imageEncryptionKey := none } ∧
    some (0 : Int) ≠ (none : Option Int) := by
  refine ⟨?_, by decide⟩
  unfold decodeConversationMetadata
  rw [show (fieldFixed64 3 0 : Bytes) = fieldFixed64 3 0 ++ ([] : Bytes) from by simp]
  rw [metaLoop_field3 (by norm_num), metaLoop_nil]
  rfl

/-- C8: with no `invite_base_url` override, the base URL is selected by
the environment — `dev`/`local` map to `https://dev.convos.org/v2`,
`production` to `https://popup.convos.org/v2` — and the generated URL is
the base followed by `?i=` and the URL-encoded slug. -/
theorem C8_invite_base_url (slug : JSStr) :
    middlewareInviteBaseURL none (some (s2b "dev")) = s2b "https://dev.convos.org/v2" ∧
    middlewareInviteBaseURL none (some (s2b "local")) = s2b "https://dev.convos.org/v2" ∧
    middlewareInviteBaseURL none (some (s2b "production")) =
      s2b "https://popup.convos.org/v2" ∧
    generateInviteURL slug (middlewareInviteBaseURL none (some (s2b "production"))) =
      s2b "https://popup.convos.org/v2" ++ s2b "?i=" ++ encodeURIComponent slug := by
  refine ⟨by decide, by decide, by decide, ?_⟩
  unfold generateInviteURL
  rw [show middlewareInviteBaseURL none (some (s2b "production")) =
    s2b "https://popup.convos.org/v2" from by decide]

/-- C10: a decoded `InvitePayload` never carries the empty string in
`name`, `description` or `imageURL` — the decoder's post-processing
collapses a wire-present empty string to "not set". -/
theorem C10_empty_display_absent (bs : Bytes) (p : InvitePayload)
    (h : decodeInvitePayload bs = some p) :
    p.name ≠ some [] ∧ p.description ≠ some [] ∧ p.imageURL ≠ some [] := by
  unfold decodeInvitePayload at h
  cases hr : pbDecodeInvitePayload bs with
  | none =>
    rw [hr] at h
    cases h
  | some r =>
    rw [hr] at h
    injection h with h
    subst h
    unfold fromRawInvitePayload
    refine ⟨?_, ?_, ?_⟩ <;> dsimp only
    · cases r.name with
      | none => exact fun hc => Option.noConfusion hc
      | some s =>
        by_cases hs : s = [] <;> simp [hs]
    · cases r.description with
      | none => exact fun hc => Option.noConfusion hc
      | some s =>
        by_cases hs : s = [] <;> simp [hs]
    · cases r.imageURL with
      | none => exact fun hc => Option.noConfusion hc
      | some s =>
        by_cases hs : s = [] <;> simp [hs]

theorem C10_empty_display_absent_witness :
    decodeInvitePayload (fieldBytes 4 []) =
      some ({ conversationToken := [], creatorInboxId := [], tag := [] } : InvitePayload) ∧
    ({ conversationToken := [], creatorInboxId := [], tag := [] }
        : InvitePayload).name ≠ some [] ∧
    ({ conversationToken := [], creatorInboxId := [], tag := [] }
        : InvitePayload).description ≠ some [] ∧
    ({ conversationToken := [], creatorInboxId := [], tag := [] }
        : InvitePayload).imageURL ≠ some [] := by
  have h : decodeInvitePayload (fieldBytes 4 []) =
      some ({ conversationToken := [], creatorInboxId := [], tag := [] } : InvitePayload) := by
    unfold decodeInvitePayload pbDecodeInvitePayload
    rw [show (fieldBytes 4 [] : Bytes) = fieldBytes 4 [] ++ ([] : Bytes) from by simp]
    rw [ipLoop_field4, ipLoop_nil]
    rfl
  exact ⟨h, C10_empty_display_absent _ _ h⟩

/-- Metadata value of the worked example. -/
def toyMeta : ConversationCustomMetadata where
  tag := [9]
  profiles := [{ inboxId := [171], name := some (s2b "n"), image := none }]
  expiresAtUnix := some 7
  imageEncryptionKey := some [3]

/-- A metadata value with the expiry present as 0. -/
def toyMetaZero : ConversationCustomMetadata where
  tag := []
  expiresAtUnix := some 0

/-- What `toyMetaZero` decodes back to: the expiry is gone. -/
def toyMetaZeroDecoded : ConversationCustomMetadata where
  tag := []
  expiresAtUnix := none

/-- C3: a DM from another inbox whose text fails `parseInviteSlug` is
blocked (handled, sender blocked) exactly when the trimmed text is at
least 50 characters drawn from `[A-Za-z0-9_\-*]`, and is passed through
unhandled otherwise. -/
theorem C3_malformed_text_classification (E : ExtCrypto) (P : Pako) (self : JSStr)
    (privateKey : Bytes) (now : Int) (convExists : JSStr → Bool) (ts : Int)
    (text sender : JSStr) (hsender : sender ≠ self)
    (hfail : parseInviteSlug P now text = none) :
    handleMessage E P self privateKey now convExists ts (some text) sender =
      some (if 50 ≤ (jsTrim text).length ∧ (jsTrim text).all isSlugChar = true
        then (true, [MWAction.blockSender sender]) else (false, [])) := by
  unfold handleMessage
  dsimp only
  rw [if_neg hsender, hfail]
  dsimp only
  by_cases hb : looksLikeInviteSlug text = true
  · rw [if_pos hb, if_pos ((looksLikeInviteSlug_iff text).mp hb)]
  · rw [if_neg hb, if_neg (fun hc => hb ((looksLikeInviteSlug_iff text).mpr hc))]

theorem C3_malformed_text_classification_witness :
    handleMessage extCryptoToy pakoToy (s2b "me") [] 0 (fun _ => true) 0
      (some (s2b "hello")) (s2b "you") =
      some (if 50 ≤ (jsTrim (s2b "hello")).length ∧
          (jsTrim (s2b "hello")).all isSlugChar = true
        then (true, [MWAction.blockSender (s2b "you")]) else (false, [])) :=
  C3_malformed_text_classification extCryptoToy pakoToy (s2b "me") [] 0
    (fun _ => true) 0 (s2b "hello") (s2b "you") (by decide) (by decide)

/-- C5 (amended): the metadata codec round-trips every value whose
optional expiry is nonzero and within the signed 64-bit range (and whose
byte fields are bytes), and `getInviteTag` then recovers the tag; a
wire-zero expiry written by the encoder is dropped, so `some 0` does not
round-trip (see the counterexample). -/
theorem C5_metadata_codec_roundtrip (P : Pako) (m : ConversationCustomMetadata)
    (h1 : ValidBytes m.tag)
    (h2 : ∀ p ∈ m.profiles, ValidBytes p.inboxId ∧ ValidOptStr p.name ∧ ValidOptStr p.image)
    (h3 : ∀ k, m.imageEncryptionKey = some k → ValidBytes k)
    (hts : ∀ v, m.expiresAtUnix = some v → v ≠ 0 ∧ -(2 ^ 63) ≤ v ∧ v < 2 ^ 63)
    (hsize : SizeOk P (encodeConversationMetadata m)) :
    decodeMetadata P (encodeMetadata P m) = some m ∧
    getInviteTag P (encodeMetadata P m) = some m.tag := by
  have h := metadataCodec_spec P m h1 h2 h3 hsize
  rw [rawOfMeta_eq_self hts] at h
  refine ⟨h, ?_⟩
  unfold getInviteTag
  rw [h]
  rfl

theorem C5_metadata_codec_roundtrip_witness :
    decodeMetadata pakoToy (encodeMetadata pakoToy toyMeta) = some toyMeta ∧
    getInviteTag pakoToy (encodeMetadata pakoToy toyMeta) = some toyMeta.tag :=
  C5_metadata_codec_roundtrip pakoToy toyMeta
    (by decide) (by decide)
    (by
      intro k hk
      simp only [toyMeta, Option.some.injEq] at hk
      subst hk
      decide)
    (by
      intro v hv
      simp only [toyMeta, Option.some.injEq] at hv
      subst hv
      decide)
    (pakoToy_sizeOk _)

/-- C5 counterexample: a metadata value whose `expiresAtUnix` is
`some 0` decodes back with the field absent, so `decode ∘ encode` is not
the identity on it. -/
theorem C5_counter_zero_expiry :
    decodeMetadata pakoToy (encodeMetadata pakoToy toyMetaZero) =
      some toyMetaZeroDecoded ∧ toyMetaZeroDecoded ≠ toyMetaZero := by
  refine ⟨?_, by decide⟩
  have h := metadataCodec_spec pakoToy toyMetaZero
    (by decide) (by decide) (by intro k hk; cases hk) (pakoToy_sizeOk _)
  exact h

/-- C1 counterexample: an invite minted with `expiresAt` equal to epoch
second 0 parses, at wall-clock 5, as *not* expired — the encoder's
truthiness test drops the zero timestamp, so the parsed expiry flag does
not match the input timestamp. -/
theorem C1_counter_zero_expiry :
    ((createInviteSlug extCryptoToy pakoToy toyNonce (toyOptions (some 0) none)).bind
        (parseInviteSlug pakoToy 5)).map ParsedInvite.isExpired = some false ∧
    ((createInviteSlug extCryptoToy pakoToy toyNonce (toyOptions (some 0) none)).bind
        (parseInviteSlug pakoToy 5)).map (fun pi => pi.payload.expiresAtUnix) =
      some none := by
  obtain ⟨h1, h2⟩ := toyCreateParse (some 0) none 5
  rw [h1]
  constructor
  · show (parseInviteSlug pakoToy 5 (encodeToSlug pakoToy
      (encodeSignedInvite (mkSignedInvite (toyPayload (some 0) none) toySig 0)))).map
        ParsedInvite.isExpired = some false
    rw [h2]
    rfl
  · show (parseInviteSlug pakoToy 5 (encodeToSlug pakoToy
      (encodeSignedInvite (mkSignedInvite (toyPayload (some 0) none) toySig 0)))).map
        (fun pi => pi.payload.expiresAtUnix) = some none
    rw [h2]
    rfl

/-- C4: a verified join request whose invite is both expired and
conversation-expired is answered with exactly one `ConversationExpired`
error on the DM conversation — one `sendError` action, no `emitInvite`
and no second error. -/
theorem C4_both_expired_one_error (E : ExtCrypto) (P : Pako) (self : JSStr)
    (privateKey : Bytes) (now : Int) (convExists : JSStr → Bool) (ts : Int)
    (text sender : JSStr) (pi : ParsedInvite)
    (hsender : sender ≠ self)
    (hparse : parseInviteSlug P now text = some pi)
    (hcreator : pi.creatorInboxId = self)
    (hverify : verifyInviteWithPrivateKey E pi.signedInvite privateKey = some true)
    (hexp : pi.isExpired = true) (hcexp : pi.isConversationExpired = true) :
    handleMessage E P self privateKey now convExists ts (some text) sender =
      some (true, [MWAction.sendError (createConversationExpiredError pi.payload.tag ts)]) := by
  unfold handleMessage
  dsimp only
  rw [if_neg hsender, hparse]
  dsimp only
  rw [if_neg (fun hc => hc hcreator), hverify]
  dsimp only
  rw [if_neg (by simp), if_pos (Or.inl hexp)]

theorem C4_both_expired_one_error_witness :
    handleMessage extCryptoToy pakoToy (s2b "ab") toyPriv 5 (fun _ => true) 9
      (some (encodeToSlug pakoToy
        (encodeSignedInvite (mkSignedInvite (toyPayload (some 1) (some 1)) toySig 0))))
      (s2b "cd") =
      some (true, [MWAction.sendError
        (createConversationExpiredError (s2b "t") 9)]) :=
  C4_both_expired_one_error extCryptoToy pakoToy (s2b "ab") toyPriv 5 (fun _ => true) 9
    (encodeToSlug pakoToy
      (encodeSignedInvite (mkSignedInvite (toyPayload (some 1) (some 1)) toySig 0)))
    (s2b "cd") (mkParsedInvite (toyPayload (some 1) (some 1)) toySig 0 5)
    (by decide) ((toyCreateParse (some 1) (some 1) 5).2) (by decide)
    (verifyWithPriv_of_sign extCryptoToy
      (toySign (extCryptoToy.sha256 (encodeInvitePayload (toyPayload (some 1) (some 1))))) rfl)
    (by decide) (by decide)

/-- The profile entry `setConversationProfile` writes for hex inbox id
`h` and the given display fields. -/
def mkProfile (h : JSStr) (name image : Option JSStr) : ConversationProfile where
  inboxId := hexPairs h
  name := name
  image := image

/-- C9: on a metadata value with at most one profile per inbox id,
`setConversationProfile` (for a canonical lowercase-hex caller inbox id)
is an upsert: an existing entry is replaced in place, otherwise one
entry is appended; uniqueness and all other entries are preserved, and a
second call by the same inbox leaves exactly one profile for it, holding
the second call's values. -/
theorem C9_set_profile_upsert (m : ConversationCustomMetadata) (inboxIdHex : JSStr)
    (name image name2 image2 : Option JSStr)
    (hcanon : IsCanonHex inboxIdHex) (hu : UniqProfiles m.profiles) :
    ∃ m' m'' : ConversationCustomMetadata,
      setConversationProfileMeta m inboxIdHex name image = some m' ∧
      m'.tag = m.tag ∧ m'.expiresAtUnix = m.expiresAtUnix ∧
      m'.imageEncryptionKey = m.imageEncryptionKey ∧
      m'.profiles =
        (if m.profiles.any (fun p => bytesToHex p.inboxId = inboxIdHex)
         then m.profiles.map (fun p => if bytesToHex p.inboxId = inboxIdHex
           then mkProfile inboxIdHex name image else p)
         else m.profiles ++ [mkProfile inboxIdHex name image]) ∧
      UniqProfiles m'.profiles ∧
      m'.profiles.filter (fun p => bytesToHex p.inboxId ≠ inboxIdHex) =
        m.profiles.filter (fun p => bytesToHex p.inboxId ≠ inboxIdHex) ∧
      m'.profiles.filter (fun p => bytesToHex p.inboxId = inboxIdHex) =
        [mkProfile inboxIdHex name image] ∧
      setConversationProfileMeta m' inboxIdHex name2 image2 = some m'' ∧
      m''.profiles.filter (fun p => bytesToHex p.inboxId = inboxIdHex) =
        [mkProfile inboxIdHex name2 image2] ∧
      m''.profiles.filter (fun p => bytesToHex p.inboxId ≠ inboxIdHex) =
        m.profiles.filter (fun p => bytesToHex p.inboxId ≠ inboxIdHex) := by
  have hkey1 : bytesToHex ((mkProfile inboxIdHex name image).inboxId) = inboxIdHex :=
    bytesToHex_hexPairs hcanon.2 hcanon.1
  have hkey2 : bytesToHex ((mkProfile inboxIdHex name2 image2).inboxId) = inboxIdHex :=
    bytesToHex_hexPairs hcanon.2 hcanon.1
  have hgo : ∀ (l : List ConversationProfile) (n i : Option JSStr),
      upsertProfile l inboxIdHex (hexPairs inboxIdHex) n i =
        upsertGo inboxIdHex (mkProfile inboxIdHex n i) l :=
    fun l n i => upsertProfile_eq_go l inboxIdHex (hexPairs inboxIdHex) n i
  have hu1 : UniqProfiles
      (upsertGo inboxIdHex (mkProfile inboxIdHex name image) m.profiles) :=
    upsertGo_pairwise hkey1 hu
  refine ⟨{ m with profiles := upsertProfile m.profiles inboxIdHex (hexPairs inboxIdHex) name image },
    { m with profiles := upsertProfile (upsertProfile m.profiles inboxIdHex (hexPairs inboxIdHex) name image) inboxIdHex (hexPairs inboxIdHex) name2 image2 },
    ?_, rfl, rfl, rfl, ?_, ?_, ?_, ?_, ?_, ?_, ?_⟩
  · unfold setConversationProfileMeta
    rw [hexToBytes_canon hcanon]
  · dsimp only
    rw [hgo]
    exact upsertGo_shape hkey1 hu
  · dsimp only
    rw [hgo]
    exact hu1
  · dsimp only
    rw [hgo]
    exact upsertGo_filter_other hkey1 m.profiles
  · dsimp only
    rw [hgo]
    exact upsertGo_filter_key hkey1 hu
  · unfold setConversationProfileMeta
    rw [hexToBytes_canon hcanon]
  · dsimp only
    rw [hgo, hgo]
    exact upsertGo_filter_key hkey2 hu1
  · dsimp only
    rw [hgo, hgo]
    rw [upsertGo_filter_other hkey2]
    exact upsertGo_filter_other hkey1 m.profiles

theorem C9_set_profile_upsert_witness :
    ∃ m' m'' : ConversationCustomMetadata,
      setConversationProfileMeta toyMetaZeroDecoded (s2b "ab")
        (some (s2b "n1")) none = some m' ∧
      m'.tag = toyMetaZeroDecoded.tag ∧
      m'.expiresAtUnix = toyMetaZeroDecoded.expiresAtUnix ∧
      m'.imageEncryptionKey = toyMetaZeroDecoded.imageEncryptionKey ∧
      m'.profiles =
        (if toyMetaZeroDecoded.profiles.any (fun p => bytesToHex p.inboxId = s2b "ab")
         then toyMetaZeroDecoded.profiles.map (fun p =>
           if bytesToHex p.inboxId = s2b "ab"
           then mkProfile (s2b "ab") (some (s2b "n1")) none else p)
         else toyMetaZeroDecoded.profiles ++
           [mkProfile (s2b "ab") (some (s2b "n1")) none]) ∧
      UniqProfiles m'.profiles ∧
      m'.profiles.filter (fun p => bytesToHex p.inboxId ≠ s2b "ab") =
        toyMetaZeroDecoded.profiles.filter
          (fun p => bytesToHex p.inboxId ≠ s2b "ab") ∧
      m'.profiles.filter (fun p => bytesToHex p.inboxId = s2b "ab") =
        [mkProfile (s2b "ab") (some (s2b "n1")) none] ∧
      setConversationProfileMeta m' (s2b "ab") (some (s2b "n2")) (some (s2b "i2")) =
        some m'' ∧
      m''.profiles.filter (fun p => bytesToHex p.inboxId = s2b "ab") =
        [mkProfile (s2b "ab") (some (s2b "n2")) (some (s2b "i2"))] ∧
      m''.profiles.filter (fun p => bytesToHex p.inboxId ≠ s2b "ab") =
        toyMetaZeroDecoded.profiles.filter
          (fun p => bytesToHex p.inboxId ≠ s2b "ab") :=
  C9_set_profile_upsert toyMetaZeroDecoded (s2b "ab") (some (s2b "n1")) none
    (some (s2b "n2")) (some (s2b "i2")) (by decide) (by decide)

/-- C1 (amended): for every crypto/DEFLATE instance satisfying the
library contracts, a successful mint with a canonical lowercase-hex
creator inbox id, a packable conversation id, a 12-byte nonce and
timestamps that are nonzero and within the signed 64-bit range parses
back with matching tag, creator inbox id and expiry flags; the parsed
invite verifies with the private key and decrypts to the original
conversation id (UUIDs lowercased).  A zero timestamp breaks the flag
round-trip (see the counterexample). -/
theorem C1_create_parse_roundtrip (E : ExtCrypto) (P : Pako) (nonce : Bytes)
    (o : CreateInviteOptions) (now : Int) (p : InvitePayload) (c : Bytes) (r : Nat)
    (hp : buildInvitePayload E nonce o = some p)
    (hsig : E.nobleSign (E.sha256 (encodeInvitePayload p)) o.privateKey = some (c, r))
    (hinbox : IsCanonHex o.creatorInboxId)
    (hconv : PackableConvId o.conversationId) (hconvb : ValidBytes o.conversationId)
    (hnonce : nonce.length = 12) (hnonceb : ValidBytes nonce)
    (htag : ValidBytes o.inviteTag) (hname : ValidOptStr o.name)
    (hdesc : ValidOptStr o.description) (himg : ValidOptStr o.imageURL)
    (hexp : ∀ v, o.expiresAt = some v → v ≠ 0 ∧ -(2 ^ 63) ≤ v ∧ v < 2 ^ 63)
    (hcexp : ∀ v, o.conversationExpiresAt = some v → v ≠ 0 ∧ -(2 ^ 63) ≤ v ∧ v < 2 ^ 63)
    (hsize : SizeOk P (encodeSignedInvite (mkSignedInvite p c r))) :
    ∃ slug pi, createInviteSlug E P nonce o = some slug ∧
      parseInviteSlug P now slug = some pi ∧
      pi.payload.tag = o.inviteTag ∧
      pi.creatorInboxId = o.creatorInboxId ∧
      pi.isExpired = (o.expiresAt.map (fun v => decide (v < now))).getD false ∧
      pi.isConversationExpired =
        (o.conversationExpiresAt.map (fun v => decide (v < now))).getD false ∧
      verifyInviteWithPrivateKey E pi.signedInvite o.privateKey = some true ∧
      decryptInviteConversationId E pi o.privateKey =
        some (if isUuidStr o.conversationId then lowerStr o.conversationId
          else o.conversationId) := by
  have hp' := hp
  unfold buildInvitePayload at hp'
  rw [hexToBytes_canon hinbox] at hp'
  dsimp only at hp'
  injection hp' with hp'
  obtain ⟨hcreate, hparse⟩ := createParse_spec E P nonce o now hp hsig
    (by
      rw [← hp']
      exact encodeInvitePayload_bytes
        (encryptConversationToken_bytes E hnonceb hconvb _ _)
        (hexPairs_bytes _) htag hname hdesc himg)
    hsize
  refine ⟨_, _, hcreate, hparse, ?_, ?_, ?_, ?_, ?_, ?_⟩
  · show (fromRawInvitePayload (rawOfPayload p)).tag = o.inviteTag
    rw [← hp']
    rfl
  · show bytesToHex p.creatorInboxId = o.creatorInboxId
    rw [← hp']
    exact bytesToHex_hexPairs hinbox.2 hinbox.1
  · show (match (fromRawInvitePayload (rawOfPayload p)).expiresAtUnix with
      | some v => decide (v < now)
      | none => false) = (o.expiresAt.map (fun v => decide (v < now))).getD false
    rw [fromRaw_rawOf_exp p (by rw [← hp']; exact hexp), ← hp']
    dsimp only
    cases o.expiresAt <;> rfl
  · show (match (fromRawInvitePayload (rawOfPayload p)).conversationExpiresAtUnix with
      | some v => decide (v < now)
      | none => false) =
        (o.conversationExpiresAt.map (fun v => decide (v < now))).getD false
    rw [fromRaw_rawOf_conv p (by rw [← hp']; exact hcexp), ← hp']
    dsimp only
    cases o.conversationExpiresAt <;> rfl
  · exact verifyWithPriv_of_sign E hsig rfl
  · show decryptConversationToken E (fromRawInvitePayload (rawOfPayload p)).conversationToken
      (bytesToHex p.creatorInboxId) o.privateKey = _
    have htok : (fromRawInvitePayload (rawOfPayload p)).conversationToken =
        p.conversationToken := rfl
    rw [htok, ← hp']
    dsimp only
    rw [bytesToHex_hexPairs hinbox.2 hinbox.1]
    exact decrypt_encrypt_token E hnonce o.conversationId o.creatorInboxId
      o.privateKey hconv

theorem C1_create_parse_roundtrip_witness :
    ∃ slug pi,
      createInviteSlug extCryptoToy pakoToy toyNonce (toyOptions (some 7) none) =
        some slug ∧
      parseInviteSlug pakoToy 5 slug = some pi ∧
      pi.payload.tag = s2b "t" ∧
      pi.creatorInboxId = s2b "ab" ∧
      pi.isExpired = ((some (7 : Int)).map (fun v => decide (v < 5))).getD false ∧
      pi.isConversationExpired =
        ((none : Option Int).map (fun v => decide (v < 5))).getD false ∧
      verifyInviteWithPrivateKey extCryptoToy pi.signedInvite toyPriv = some true ∧
      decryptInviteConversationId extCryptoToy pi toyPriv =
        some (if isUuidStr (s2b "x") then lowerStr (s2b "x") else s2b "x") :=
  C1_create_parse_roundtrip extCryptoToy pakoToy toyNonce (toyOptions (some 7) none) 5
    (toyPayload (some 7) none) toySig 0
    (toyBuild (some 7) none)
    (toySign (extCryptoToy.sha256 (encodeInvitePayload (toyPayload (some 7) none))))
    (by decide) (by decide) (by decide) (by decide) (by decide) (by decide)
    (by decide) (by decide) (by decide)
    (by
      intro v hv
      simp only [toyOptions, Option.some.injEq] at hv
      subst hv
      decide)
    (by
      intro v hv
      simp only [toyOptions] at hv
      cases hv)
    (pakoToy_sizeOk _)

end Convos
